import Mathlib

/-!
Verification of the Fornax document engine (src/main.ts).

Text is modelled as `List Char` (a JS string); a document's paragraph list as
`List (List Char)`.  All definitions below are shallow embeddings of the
TypeScript source: JS `split('\n')` / `join('\n')` become `splitLines` /
`joinLines`, `split('\n\n')` becomes `splitPP`, `Array.prototype.splice`
becomes explicit `take`/`drop` surgery, and the three global regex replaces
of `ensureProperHeadingSpacing` become the scanning functions `pass1`,
`pass2`, `pass3` (JS global replace semantics: leftmost match, resume
scanning after the end of each match).
-/

namespace Fornax

/-- JS `String.prototype.trim`, left part: drop leading whitespace. -/
def trimLeft (l : List Char) : List Char := l.dropWhile Char.isWhitespace

/-- JS `String.prototype.trim`, right part: drop trailing whitespace. -/
def trimRight (l : List Char) : List Char :=
  (l.reverse.dropWhile Char.isWhitespace).reverse

/-- JS `String.prototype.trim`. -/
def trim (l : List Char) : List Char := trimRight (trimLeft l)

/-- JS `s.split(sep)` for a single-character separator. -/
def splitOnChar (sep : Char) : List Char → List (List Char)
  | [] => [[]]
  | c :: rest =>
    if c = sep then [] :: splitOnChar sep rest
    else
      match splitOnChar sep rest with
      | [] => [[c]]
      | p :: ps => (c :: p) :: ps

/-- JS `paragraph.split('\n')`. -/
def splitLines (l : List Char) : List (List Char) := splitOnChar '\n' l

/-- JS `lines.join('\n')`. -/
def joinLines : List (List Char) → List Char
  | [] => []
  | [p] => p
  | p :: q :: ps => p ++ '\n' :: joinLines (q :: ps)

/-- JS `rawParagraphs.join('\n\n')`. -/
def joinParagraphs : List (List Char) → List Char
  | [] => []
  | [p] => p
  | p :: q :: ps => p ++ '\n' :: '\n' :: joinParagraphs (q :: ps)

/-- JS `content.split('\n\n')` (two-character separator, leftmost-greedy). -/
def splitPP : List Char → List (List Char)
  | [] => [[]]
  | '\n' :: '\n' :: rest => [] :: splitPP rest
  | c :: rest =>
    match splitPP rest with
    | [] => [[c]]
    | p :: ps => (c :: p) :: ps

/-- JS `l.take pre.length == pre`, i.e. `String.prototype.startsWith`. -/
def startsWithChars (pre l : List Char) : Bool := l.take pre.length == pre

/-- The annotation-line test used throughout src/main.ts (e.g. lines 66-68,
896, 935, 976, ...): the trimmed line starts with `%%` and ends with `%%`.
The source performs `trimmed.startsWith('%%') && trimmed.endsWith('%%')`;
there is no minimum-length requirement beyond what those two checks imply. -/
def isAnnotationLine (line : List Char) : Bool :=
  let t := trim line
  t.take 2 == ['%', '%'] && t.drop (t.length - 2) == ['%', '%']

/-- A visible sentence-line: non-empty after trimming and not an annotation
(src/main.ts lines 66-68: `trimmed && !(trimmed.startsWith('%%') &&
trimmed.endsWith('%%'))`). -/
def isVisibleLine (line : List Char) : Bool :=
  !(trim line).isEmpty && !isAnnotationLine line

/-- JS `trimmed.slice(2, -2).trim()`: the payload of an annotation line
(src/main.ts line 1057 etc.). -/
def commentContent (line : List Char) : List Char :=
  let t := trim line
  trim ((t.drop 2).take (t.length - 4))

def PARAGRAPH_COMPLETE : List Char := "PARAGRAPH_COMPLETE".data

def paragraphCompleteLine : List Char := "%% PARAGRAPH_COMPLETE %%".data

def SELECTEDprefixChars : List Char := "SELECTED:".data

def ORIGINALprefixChars : List Char := "ORIGINAL:".data

/-- `countHash l` = length of the leading run of `#` characters; used to
model the regex fragment `#{1,6}` (which, after backtracking, matches at a
position iff the full leading hash-run has length between 1 and 6). -/
def countHash (l : List Char) : Nat := (l.takeWhile (· = '#')).length

/-- Does `#{1,6}\s` match at the start of `l` (for the first replace of
`ensureProperHeadingSpacing`, src/main.ts line 1283)? -/
def headingStart (l : List Char) : Bool :=
  let r := countHash l
  decide (1 ≤ r) && decide (r ≤ 6) &&
    (match (l.drop r).head? with
     | some c => c.isWhitespace
     | none => false)

/-- First replace of `ensureProperHeadingSpacing`:
`.replace(/([^\n])\n(#{1,6}\s)/g, '$1\n\n$2')` (src/main.ts line 1283),
with JS global-replace semantics (resume after the match). -/
def pass1 : List Char → List Char
  | [] => []
  | [c] => [c]
  | c :: c2 :: rest =>
    if c ≠ '\n' ∧ c2 = '\n' ∧ headingStart rest then
      let r := countHash rest
      c :: '\n' :: '\n' :: (rest.take (r + 1) ++ pass1 (rest.drop (r + 1)))
    else c :: pass1 (c2 :: rest)
termination_by l => l.length
decreasing_by
  · simp only [List.length_drop, List.length_cons]
    omega
  · simp only [List.length_cons]
    omega

/-- Does `(#{1,6}\s[^\n]*)\n([^#\n])` match at the start of `l` (for the
second replace of `ensureProperHeadingSpacing`, src/main.ts line 1285)? -/
def matchAfterHeading (l : List Char) : Bool :=
  let r := countHash l
  decide (1 ≤ r) && decide (r ≤ 6) &&
    (match l.drop r with
     | [] => false
     | ws :: t =>
       ws.isWhitespace &&
         (match t.dropWhile (· ≠ '\n') with
          | '\n' :: d :: _ => decide (d ≠ '#') && decide (d ≠ '\n')
          | _ => false))

/-- Second replace of `ensureProperHeadingSpacing`:
`.replace(/(#{1,6}\s[^\n]*)\n([^#\n])/g, '$1\n\n$2')` (src/main.ts
line 1285), with JS global-replace semantics. -/
def pass2 : List Char → List Char
  | [] => []
  | c :: rest =>
    if matchAfterHeading (c :: rest) then
      let r := countHash (c :: rest)
      let u := ((c :: rest).drop (r + 1)).takeWhile (· ≠ '\n')
      let k := r + 1 + u.length
      (c :: rest).take (k + 1) ++
        '\n' :: (((c :: rest).drop (k + 1)).take 1 ++ pass2 ((c :: rest).drop (k + 2)))
    else c :: pass2 rest
termination_by l => l.length
decreasing_by
  · simp only [List.length_drop, List.length_cons]
    omega
  · simp only [List.length_cons]
    omega

/-- Third replace of `ensureProperHeadingSpacing`:
`.replace(/\n{3,}/g, '\n\n')` (src/main.ts line 1287): a maximal run of
three or more newlines collapses to exactly two. -/
def pass3 : List Char → List Char
  | [] => []
  | c :: rest =>
    if (c :: rest).take 3 = ['\n', '\n', '\n'] then
      '\n' :: '\n' :: pass3 (rest.dropWhile (· = '\n'))
    else c :: pass3 rest
termination_by l => l.length
decreasing_by
  · simp only [List.length_cons]
    have h : (rest.dropWhile (· = '\n')).length ≤ rest.length :=
      (List.dropWhile_sublist _).length_le
    omega
  · simp only [List.length_cons]
    omega

/-- `TelescopeOverlay.ensureProperHeadingSpacing` (src/main.ts 1279-1288):
the three global replaces in order. -/
def ensureProperHeadingSpacing (content : List Char) : List Char :=
  pass3 (pass2 (pass1 content))

/-- The fields of the record returned by `FornaxEngine.parseDocument`
(src/main.ts 52-82) that the engine operates on (`edits` and `sections` are
view-only and not modelled). -/
structure ParsedDocument where
  paragraphs : List (List Char)
  sentences : List (List (List Char))
  rawParagraphs : List (List Char)
deriving Repr, DecidableEq

/-- `FornaxEngine.parseDocument` (src/main.ts 52-82): split on `\n\n`,
discard paragraphs that are empty after trimming, keep raw text, and filter
each paragraph's lines down to the visible sentence-lines. -/
def parseDocument (content : List Char) : ParsedDocument :=
  let rawParagraphs := (splitPP content).filter (fun p => !(trim p).isEmpty)
  let sentences := rawParagraphs.map (fun para => (splitLines para).filter isVisibleLine)
  let paragraphs := sentences.map joinLines
  ⟨paragraphs, sentences, rawParagraphs⟩

/-- `TelescopeOverlay.reconstructMarkdown` (src/main.ts 1265-1277), raw
branch: join raw paragraphs with `\n\n` and normalize heading spacing. -/
def reconstructMarkdown (doc : ParsedDocument) : List Char :=
  ensureProperHeadingSpacing (joinParagraphs doc.rawParagraphs)

/-- The `'before' | 'after'` drop positions. -/
inductive InsertPos where
  | before
  | after
deriving Repr, DecidableEq

/-- The sentence-finding loop repeated throughout src/main.ts (lines 894-903,
933-942, 974-1001, 1040-1049, ...): index of the `sentIndex`-th visible
line, or `none` (the source's `sentenceLineIndex === -1`). -/
def findSentenceLineIndex : List (List Char) → Nat → Option Nat
  | [], _ => none
  | line :: rest, k =>
    if isVisibleLine line then
      if k = 0 then some 0
      else (findSentenceLineIndex rest (k - 1)).map (· + 1)
    else (findSentenceLineIndex rest k).map (· + 1)

/-- `TelescopeOverlay.extractSentenceBlock` (src/main.ts 887-924): the
sentence line together with all following annotation and blank lines, up to
the next visible line. -/
def extractSentenceBlock (paragraph : List Char) (sentenceIndex : Nat) : List (List Char) :=
  let lines := splitLines paragraph
  match findSentenceLineIndex lines sentenceIndex with
  | none => []
  | some i =>
    match lines.drop i with
    | [] => []
    | line :: rest => line :: rest.takeWhile (fun l => !isVisibleLine l)

/-- `TelescopeOverlay.removeSentenceBlock` (src/main.ts 926-965). -/
def removeSentenceBlock (paragraph : List Char) (sentenceIndex : Nat) : List Char :=
  let lines := splitLines paragraph
  match findSentenceLineIndex lines sentenceIndex with
  | none => paragraph
  | some i =>
    let removeCount :=
      1 + ((lines.drop (i + 1)).takeWhile (fun l => !isVisibleLine l)).length
    joinLines (lines.take i ++ lines.drop (i + removeCount))

/-- `TelescopeOverlay.insertSentenceBlock` (src/main.ts 967-1008).  When the
target index is not found the source's `insertLineIndex` keeps its initial
value `0`, so the block is inserted at the start of the paragraph. -/
def insertSentenceBlock (paragraph : List Char) (targetSentenceIndex : Nat)
    (block : List (List Char)) (position : InsertPos) : List Char :=
  let lines := splitLines paragraph
  let insertLineIndex :=
    match findSentenceLineIndex lines targetSentenceIndex with
    | none => 0
    | some i =>
      match position with
      | .before => i
      | .after => i + 1 + ((lines.drop (i + 1)).takeWhile (fun l => !isVisibleLine l)).length
  joinLines (lines.take insertLineIndex ++ block ++ lines.drop insertLineIndex)

/-- `TelescopeOverlay.moveSentenceBlockWithinParagraph` (src/main.ts
1224-1248). -/
def moveSentenceBlockWithinParagraph (paragraph : List Char) (fromIndex toIndex : Nat)
    (position : InsertPos) : List Char :=
  let extractedBlock := extractSentenceBlock paragraph fromIndex
  if extractedBlock.length = 0 then paragraph
  else
    let withoutSource := removeSentenceBlock paragraph fromIndex
    let adjustedToIndex := if fromIndex < toIndex then toIndex - 1 else toIndex
    insertSentenceBlock withoutSource adjustedToIndex extractedBlock position

/-- Within-paragraph branch of the sentence case of
`TelescopeOverlay.insertElement` (src/main.ts 830-839):
`rawParagraphs[draggedParaIndex] = moveSentenceBlockWithinParagraph(...)`. -/
def moveSentenceWithinAt (rawParagraphs : List (List Char))
    (paraIndex fromIndex toIndex : Nat) (position : InsertPos) : List (List Char) :=
  rawParagraphs.set paraIndex
    (moveSentenceBlockWithinParagraph (rawParagraphs.getD paraIndex []) fromIndex toIndex
      position)

/-- `TelescopeOverlay.paragraphHasComments` (src/main.ts 1127-1149): any
annotation line whose content is not `PARAGRAPH_COMPLETE`. -/
def paragraphHasComments (paragraph : List Char) : Bool :=
  (splitLines paragraph).any
    (fun line => isAnnotationLine line && commentContent line != PARAGRAPH_COMPLETE)

/-- `TelescopeOverlay.paragraphIsComplete` (src/main.ts 1151-1172). -/
def paragraphIsComplete (paragraph : List Char) : Bool :=
  (splitLines paragraph).any
    (fun line => isAnnotationLine line && commentContent line == PARAGRAPH_COMPLETE)

/-- Core of `TelescopeOverlay.toggleParagraphCompletion` (src/main.ts
1174-1222) acting on one raw paragraph: strip all `PARAGRAPH_COMPLETE`
annotation lines; if the paragraph has no other annotations and had no
completion marker, prepend `%% PARAGRAPH_COMPLETE %%`. -/
def toggleParagraphCompletion (paragraph : List Char) : List Char :=
  let lines := splitLines paragraph
  let hasAlternatives := paragraphHasComments paragraph
  let hasCompletionComment :=
    lines.any (fun l => isAnnotationLine l && commentContent l == PARAGRAPH_COMPLETE)
  let newLines :=
    lines.filter (fun l => !(isAnnotationLine l && commentContent l == PARAGRAPH_COMPLETE))
  let newLines' :=
    if !hasAlternatives && !hasCompletionComment then paragraphCompleteLine :: newLines
    else newLines
  joinLines newLines'

/-- `TelescopeOverlay.toggleParagraphCompletion` at document level,
including its guard `paraIndex >= rawParagraphs.length` (src/main.ts
1176-1178), which makes the call a no-op. -/
def toggleParagraphCompletionAt (rawParagraphs : List (List Char)) (paraIndex : Nat) :
    List (List Char) :=
  if paraIndex < rawParagraphs.length then
    rawParagraphs.set paraIndex (toggleParagraphCompletion (rawParagraphs.getD paraIndex []))
  else rawParagraphs

/-- Helper for `natChars`, recursing on an explicit fuel bound (`n` itself
bounds the number of decimal digits, so `n + 1` fuel always suffices). -/
def natCharsAux : Nat → Nat → List Char
  | 0, _ => []
  | fuel + 1, n =>
    if n < 10 then [Char.ofNat (48 + n)]
    else natCharsAux fuel (n / 10) ++ [Char.ofNat (48 + n % 10)]

/-- Decimal digits of a natural number (model of JS number-to-string for the
template literal `${altIndex}`). -/
def natChars (n : Nat) : List Char := natCharsAux (n + 1) n

/-- Model of JS number-to-string for an integer index. -/
def intChars (i : Int) : List Char :=
  if i < 0 then '-' :: natChars i.natAbs else natChars i.toNat

/-- Model of JS `parseInt` (radix 10): skip leading whitespace, optional
sign, leading digits; `none` models `NaN`. -/
def parseIntOpt (s : List Char) : Option Int :=
  let t := s.dropWhile Char.isWhitespace
  let digitsVal : List Char → Option Int := fun r =>
    let d := r.takeWhile Char.isDigit
    if d.isEmpty then none
    else some (d.foldl (fun a c => a * 10 + ((c.toNat : Int) - 48)) 0)
  match t with
  | '-' :: r => (digitsVal r).map (fun n => -n)
  | '+' :: r => digitsVal r
  | r => digitsVal r

/-- The record returned by `TelescopeOverlay.getSentenceAlternatives`
(src/main.ts 1071-1125).  `selectedIndex = none` models `NaN`. -/
structure SentenceAlternatives where
  alternatives : List (List Char)
  selectedIndex : Option Int
  original : List Char
deriving Repr, DecidableEq

/-- The comment-scanning loop body of `TelescopeOverlay.getSentenceAlternatives`
(src/main.ts 1080-1110): a `SELECTED:`-prefixed comment sets the selection, an
`ORIGINAL:`-prefixed comment sets the original, every other comment is an
alternative; non-annotation lines are skipped. -/
def altStep (acc : List (List Char) × Option Int × List Char) (l : List Char) :
    List (List Char) × Option Int × List Char :=
  if isAnnotationLine l then
    let c := commentContent l
    if startsWithChars SELECTEDprefixChars c then
      (acc.1, parseIntOpt ((splitOnChar ':' c).getD 1 []), acc.2.2)
    else if startsWithChars ORIGINALprefixChars c then
      (acc.1, acc.2.1, trim (c.drop 9))
    else (acc.1 ++ [c], acc.2.1, acc.2.2)
  else acc

/-- `TelescopeOverlay.getSentenceAlternatives` (src/main.ts 1071-1125): scan
the annotation region after the sentence line; `SELECTED:`/`ORIGINAL:`
prefixed comments set the selection/original (last occurrence wins), every
other comment is an alternative; `original` falls back to the current
trimmed sentence when no `ORIGINAL:` comment was found. -/
def getSentenceAlternatives (paragraph : List Char) (sentIndex : Nat) : SentenceAlternatives :=
  let lines := splitLines paragraph
  match findSentenceLineIndex lines sentIndex with
  | none => ⟨[], some (-1), []⟩
  | some i =>
    let currentSentence := trim (lines.getD i [])
    let region := (lines.drop (i + 1)).takeWhile (fun l => !isVisibleLine l)
    let folded := region.foldl altStep ([], some (-1), [])
    let original := if folded.2.2.isEmpty then currentSentence else folded.2.2
    ⟨folded.1, folded.2.1, original⟩

/-- `TelescopeOverlay.selectSentenceAlternative` (src/main.ts 1443-1549).
`altIndex = -1` is the original-sentinel.  An out-of-range `altIndex` yields
an undefined (here: empty) `newSentenceText`, and an empty `newSentenceText`
makes the whole call a no-op (`if (!newSentenceText) return`). -/
def selectSentenceAlternative (paragraph : List Char) (sentIndex : Nat) (altIndex : Int) :
    List Char :=
  let data := getSentenceAlternatives paragraph sentIndex
  let newSentenceText : List Char :=
    if altIndex = -1 then data.original
    else if 0 ≤ altIndex ∧ altIndex < data.alternatives.length then
      data.alternatives.getD altIndex.toNat []
    else []
  if newSentenceText.isEmpty then paragraph
  else
    let lines := splitLines paragraph
    match findSentenceLineIndex lines sentIndex with
    | none => paragraph
    | some i =>
      let originalLine := lines.getD i []
      let leadingSpaces := originalLine.takeWhile Char.isWhitespace
      let currentSentenceText := trim originalLine
      let region := (lines.drop (i + 1)).takeWhile (fun l => !isVisibleLine l)
      let originalCommentExists :=
        region.any (fun l => isAnnotationLine l &&
          startsWithChars ORIGINALprefixChars (commentContent l))
      let selOffsets :=
        (region.enum.filter (fun pr => isAnnotationLine pr.2 &&
          startsWithChars SELECTEDprefixChars (commentContent pr.2))).map Prod.fst
      let selectedCommentIndex0 : Option Nat := selOffsets.getLast?.map (i + 1 + ·)
      let insertOriginal := !originalCommentExists && altIndex ≠ -1
      let lines1 :=
        if insertOriginal then
          lines.take (i + 1) ++
            (leadingSpaces ++ "%% ORIGINAL: ".data ++ currentSentenceText ++ " %%".data) ::
              lines.drop (i + 1)
        else lines
      let selectedCommentIndex1 :=
        if insertOriginal then selectedCommentIndex0.map (· + 1) else selectedCommentIndex0
      let lines2 := lines1.set i (leadingSpaces ++ newSentenceText)
      let lines3 :=
        match selectedCommentIndex1 with
        | some s =>
          lines2.set s ((lines2.getD s []).takeWhile Char.isWhitespace ++
            "%% SELECTED:".data ++ intChars altIndex ++ " %%".data)
        | none =>
          if altIndex ≠ -1 then
            let insertIndex := if originalCommentExists then i + 2 else i + 1
            lines2.take insertIndex ++
              (leadingSpaces ++ "%% SELECTED:".data ++ intChars altIndex ++ " %%".data) ::
                lines2.drop insertIndex
          else lines2
      let lines4 :=
        if altIndex = -1 then
          match selectedCommentIndex1 with
          | some s => lines3.take s ++ lines3.drop (s + 1)
          | none => lines3
        else lines3
      joinLines lines4

/-- `TelescopeOverlay.commitSentenceChoice` (src/main.ts 1386-1441): within
the sentence's annotation region, remove every annotation line whose content
starts with `ORIGINAL:` or `SELECTED:` or does not start with
`PARAGRAPH_COMPLETE` (the source's compound condition at lines 1416-1418). -/
def commitSentenceChoice (paragraph : List Char) (sentIndex : Nat) : List Char :=
  let lines := splitLines paragraph
  match findSentenceLineIndex lines sentIndex with
  | none => paragraph
  | some i =>
    let region := (lines.drop (i + 1)).takeWhile (fun l => !isVisibleLine l)
    let keep : List Char → Bool := fun l =>
      !(isAnnotationLine l &&
        (startsWithChars ORIGINALprefixChars (commentContent l) ||
         startsWithChars SELECTEDprefixChars (commentContent l) ||
         (!startsWithChars PARAGRAPH_COMPLETE (commentContent l) &&
          commentContent l != PARAGRAPH_COMPLETE)))
    joinLines (lines.take (i + 1) ++ region.filter keep ++ lines.drop (i + 1 + region.length))

/-- Paragraph branch of `TelescopeOverlay.insertElement` (src/main.ts
715-768): splice the dragged paragraph out and back in at the computed
insertion index (JS `splice` inserts at the end when the index exceeds the
array length, hence the `take`/`drop` formulation). -/
def moveParagraph (rawParagraphs : List (List Char)) (draggedIndex dropIndex : Nat)
    (position : InsertPos) (isHeadingTarget : Bool) : List (List Char) :=
  if h : draggedIndex < rawParagraphs.length then
    let draggedRawParagraph := rawParagraphs.get ⟨draggedIndex, h⟩
    let removed := rawParagraphs.take draggedIndex ++ rawParagraphs.drop (draggedIndex + 1)
    let insertIndex :=
      if isHeadingTarget then
        match position with
        | .before => dropIndex
        | .after => dropIndex + 1
      else
        let adjusted := if draggedIndex < dropIndex then dropIndex - 1 else dropIndex
        match position with
        | .before => adjusted
        | .after => adjusted + 1
    removed.take insertIndex ++ draggedRawParagraph :: removed.drop insertIndex
  else rawParagraphs

/-- Cross-paragraph branch of the sentence case of
`TelescopeOverlay.insertElement` (src/main.ts 840-852): extract the block
from the source paragraph, remove it there, insert it into the target
paragraph. -/
def moveSentenceAcrossParagraphs (rawParagraphs : List (List Char))
    (draggedParaIndex draggedSentIndex dropParaIndex dropSentIndex : Nat)
    (position : InsertPos) : List (List Char) :=
  let sourceParagraph := rawParagraphs.getD draggedParaIndex []
  let targetParagraph := rawParagraphs.getD dropParaIndex []
  let extractedBlock := extractSentenceBlock sourceParagraph draggedSentIndex
  let updatedSourceParagraph := removeSentenceBlock sourceParagraph draggedSentIndex
  let updatedTargetParagraph :=
    insertSentenceBlock targetParagraph dropSentIndex extractedBlock position
  (rawParagraphs.set draggedParaIndex updatedSourceParagraph).set dropParaIndex
    updatedTargetParagraph

/-- Heading-`after` branch of the sentence case of
`TelescopeOverlay.insertElement` (src/main.ts 778-820): remove the block
from its source paragraph and create a brand-new paragraph holding the block
right after the target heading's paragraph. -/
def moveSentenceAfterHeading (rawParagraphs : List (List Char))
    (draggedParaIndex draggedSentIndex dropParaIndex : Nat) : List (List Char) :=
  let sourceParagraph := rawParagraphs.getD draggedParaIndex []
  let extractedBlock := extractSentenceBlock sourceParagraph draggedSentIndex
  let updated :=
    rawParagraphs.set draggedParaIndex (removeSentenceBlock sourceParagraph draggedSentIndex)
  let insertParaIndex := dropParaIndex + 1
  updated.take insertParaIndex ++ joinLines extractedBlock :: updated.drop insertParaIndex

/-- The lines of a text that are non-blank after trimming: exactly the
visible sentence-lines together with the annotation lines. -/
def nonBlankLines (l : List Char) : List (List Char) :=
  (splitLines l).filter (fun s => !(trim s).isEmpty)

/-- Whether a text contains three consecutive newline characters. -/
def containsTripleNewline : List Char → Bool
  | [] => false
  | c :: rest =>
    if (c :: rest).take 3 = ['\n', '\n', '\n'] then true else containsTripleNewline rest

/-- All visible sentence-lines of a document, paragraph by paragraph, in
order. -/
def docVisibleLines (rawParagraphs : List (List Char)) : List (List Char) :=
  (rawParagraphs.map (fun p => (splitLines p).filter isVisibleLine)).flatten

/-- Number of visible sentence-lines among a paragraph's lines. -/
def countVisibleLines (lines : List (List Char)) : Nat :=
  (lines.filter isVisibleLine).length

/-- Decompose a paragraph's lines into its sentence blocks: each visible
line paired with the non-visible (annotation/blank) lines following it. -/
def blocksOf : List (List Char) → List (List Char × List (List Char))
  | [] => []
  | line :: rest =>
    if isVisibleLine line then
      (line, rest.takeWhile (fun x => !isVisibleLine x)) ::
        blocksOf (rest.dropWhile (fun x => !isVisibleLine x))
    else blocksOf rest
termination_by ls => ls.length
decreasing_by
  · simp only [List.length_cons]
    exact Nat.lt_succ_of_le (List.dropWhile_sublist _).length_le
  · simp only [List.length_cons]
    omega

/-- The attachment relation of a paragraph: one pair `(v, a)` for every
annotation line `a` lying in the block of the visible line `v`. -/
def anchoredLines (lines : List (List Char)) : List (List Char × List Char) :=
  (blocksOf lines).flatMap (fun b => (b.2.filter isAnnotationLine).map (fun a => (b.1, a)))

/-- The attachment relation of a whole document. -/
def docAnchored (rawParagraphs : List (List Char)) : List (List Char × List Char) :=
  (rawParagraphs.map (fun p => anchoredLines (splitLines p))).flatten

/-- Relation between two texts: same first line, and the same sequence of
non-empty lines after it.  Each normalization pass of
`ensureProperHeadingSpacing` produces an output in this relation to its
input (the passes only insert or delete empty lines). -/
def lineInv (l₁ l₂ : List Char) : Prop :=
  (splitLines l₁).head? = (splitLines l₂).head? ∧
    (splitLines l₁).tail.filter (fun s => !s.isEmpty) =
      (splitLines l₂).tail.filter (fun s => !s.isEmpty)

/-- Glue the line lists of consecutive paragraphs, one empty line between
two adjacent paragraphs: the line structure of a text whose paragraphs are
separated by `\n\n`. -/
def interBlank : List (List (List Char)) → List (List Char)
  | [] => []
  | [s] => s
  | s :: s2 :: ss => s ++ [] :: interBlank (s2 :: ss)

/-! ### Basic algebra of `splitLines` / `joinLines` -/

theorem splitOnChar_ne_nil (sep : Char) (l : List Char) : splitOnChar sep l ≠ [] := by
  induction l with
  | nil => simp [splitOnChar]
  | cons c rest ih =>
    simp only [splitOnChar]
    split
    · simp
    · cases h : splitOnChar sep rest with
      | nil => simp
      | cons p ps => simp

theorem splitLines_ne_nil (l : List Char) : splitLines l ≠ [] := splitOnChar_ne_nil '\n' l

theorem splitLines_nil : splitLines [] = [[]] := rfl

theorem splitLines_cons_newline (l : List Char) :
    splitLines ('\n' :: l) = [] :: splitLines l := by
  simp [splitLines, splitOnChar]

theorem splitLines_cons (c : Char) (l : List Char) (h : c ≠ '\n') :
    splitLines (c :: l) = (splitLines l).modifyHead (c :: ·) := by
  simp only [splitLines, splitOnChar, if_neg h]
  cases hs : splitOnChar '\n' l with
  | nil => exact absurd hs (splitOnChar_ne_nil _ _)
  | cons p ps => simp

theorem modifyHead_append_of_ne_nil (f : List Char → List Char)
    (s t : List (List Char)) (h : s ≠ []) :
    (s ++ t).modifyHead f = s.modifyHead f ++ t := by
  cases s with
  | nil => exact absurd rfl h
  | cons a s => simp

theorem mem_splitOnChar_not_mem (sep : Char) (l : List Char) :
    ∀ x ∈ splitOnChar sep l, sep ∉ x := by
  induction l with
  | nil => simp [splitOnChar]
  | cons c rest ih =>
    simp only [splitOnChar]
    split
    · intro x hx
      rcases List.mem_cons.mp hx with h | h
      · subst h; simp
      · exact ih x h
    · rename_i hne
      cases hs : splitOnChar sep rest with
      | nil => exact absurd hs (splitOnChar_ne_nil _ _)
      | cons p ps =>
        intro x hx
        rcases List.mem_cons.mp hx with h | h
        · subst h
          intro hmem
          rcases List.mem_cons.mp hmem with h' | h'
          · exact hne h'.symm
          · exact ih p (hs ▸ List.mem_cons_self _ _) h'
        · exact ih x (hs ▸ List.mem_cons_of_mem _ h)

theorem mem_splitLines_not_newline (l : List Char) :
    ∀ x ∈ splitLines l, '\n' ∉ x := mem_splitOnChar_not_mem '\n' l

theorem joinLines_cons (p : List Char) (s : List (List Char)) (h : s ≠ []) :
    joinLines (p :: s) = p ++ '\n' :: joinLines s := by
  cases s with
  | nil => exact absurd rfl h
  | cons q ps => rfl

theorem joinLines_modifyHead (c : Char) (s : List (List Char)) (h : s ≠ []) :
    joinLines (s.modifyHead (c :: ·)) = c :: joinLines s := by
  cases s with
  | nil => exact absurd rfl h
  | cons p ps =>
    cases ps with
    | nil => rfl
    | cons q ps => rfl

theorem joinLines_splitLines (l : List Char) : joinLines (splitLines l) = l := by
  induction l with
  | nil => rfl
  | cons c rest ih =>
    by_cases h : c = '\n'
    · subst h
      rw [splitLines_cons_newline,
        joinLines_cons _ _ (splitLines_ne_nil rest), ih]
      rfl
    · rw [splitLines_cons c rest h, joinLines_modifyHead c _ (splitLines_ne_nil rest), ih]

theorem splitLines_no_newline (l : List Char) (h : '\n' ∉ l) : splitLines l = [l] := by
  induction l with
  | nil => rfl
  | cons c rest ih =>
    have hc : c ≠ '\n' := fun hc => h (hc ▸ List.mem_cons_self _ _)
    rw [splitLines_cons c rest hc, ih (fun hm => h (List.mem_cons_of_mem _ hm))]
    rfl

theorem splitLines_append (a b : List Char) :
    splitLines (a ++ '\n' :: b) = splitLines a ++ splitLines b := by
  induction a with
  | nil => rw [List.nil_append, splitLines_cons_newline, splitLines_nil]; rfl
  | cons c rest ih =>
    by_cases h : c = '\n'
    · subst h
      rw [List.cons_append, splitLines_cons_newline, splitLines_cons_newline, ih]
      rfl
    · rw [List.cons_append, splitLines_cons _ _ h, splitLines_cons _ _ h, ih,
        modifyHead_append_of_ne_nil _ _ _ (splitLines_ne_nil rest)]

theorem splitLines_joinLines (ls : List (List Char)) (h₁ : ls ≠ [])
    (h₂ : ∀ x ∈ ls, '\n' ∉ x) : splitLines (joinLines ls) = ls := by
  induction ls with
  | nil => exact absurd rfl h₁
  | cons p ps ih =>
    cases ps with
    | nil =>
      exact splitLines_no_newline p (h₂ p (List.mem_cons_self _ _))
    | cons q ps' =>
      rw [joinLines_cons p _ (by simp), splitLines_append,
        splitLines_no_newline p (h₂ p (List.mem_cons_self _ _)),
        ih (by simp) (fun x hx => h₂ x (List.mem_cons_of_mem _ hx))]
      rfl

theorem splitLines_append_no_newline (a b : List Char) (h : '\n' ∉ a) :
    splitLines (a ++ b) = (splitLines b).modifyHead (a ++ ·) := by
  induction a with
  | nil => cases hs : splitLines b with
    | nil => exact absurd hs (splitLines_ne_nil b)
    | cons p ps => simp [hs]
  | cons c rest ih =>
    have hc : c ≠ '\n' := fun hc => h (hc ▸ List.mem_cons_self _ _)
    rw [List.cons_append, splitLines_cons _ _ hc,
      ih (fun hm => h (List.mem_cons_of_mem _ hm))]
    cases hs : splitLines b with
    | nil => exact absurd hs (splitLines_ne_nil b)
    | cons p ps => simp [hs]

theorem splitLines_cons_cons_newline (c : Char) (l : List Char) (h : c ≠ '\n') :
    splitLines (c :: '\n' :: l) = [c] :: splitLines l := by
  rw [splitLines_cons _ _ h, splitLines_cons_newline]
  rfl

theorem splitLines_replicate_newline (a x : List Char) (h : ∀ c ∈ a, c = '\n') :
    splitLines (a ++ x) = List.replicate a.length [] ++ splitLines x := by
  induction a with
  | nil => simp
  | cons c rest ih =>
    have hc : c = '\n' := h c (List.mem_cons_self _ _)
    subst hc
    rw [List.cons_append, splitLines_cons_newline,
      ih (fun d hd => h d (List.mem_cons_of_mem _ hd))]
    simp [List.replicate_succ]

/-! ### The heading-spacing passes only insert or delete blank lines -/

theorem lineInv_refl (l : List Char) : lineInv l l := ⟨rfl, rfl⟩

theorem filter_cons_congr (p : List Char → Bool) (a : List Char)
    {x y : List (List Char)} (h : x.filter p = y.filter p) :
    (a :: x).filter p = (a :: y).filter p := by
  simp only [List.filter_cons]
  split <;> simp [h]

theorem lineInv_filter_eq {l₁ l₂ : List Char} (h : lineInv l₁ l₂) :
    (splitLines l₁).filter (fun s => !s.isEmpty) =
      (splitLines l₂).filter (fun s => !s.isEmpty) := by
  obtain ⟨h1, h2⟩ := h
  cases hs₁ : splitLines l₁ with
  | nil => exact absurd hs₁ (splitLines_ne_nil l₁)
  | cons a s₁ =>
    cases hs₂ : splitLines l₂ with
    | nil => exact absurd hs₂ (splitLines_ne_nil l₂)
    | cons b s₂ =>
      rw [hs₁, hs₂] at h1 h2
      simp only [List.head?_cons, Option.some.injEq] at h1
      simp only [List.tail_cons] at h2
      subst h1
      exact filter_cons_congr _ a h2

theorem lineInv_cons (c : Char) {l₁ l₂ : List Char} (h : lineInv l₁ l₂) :
    lineInv (c :: l₁) (c :: l₂) := by
  by_cases hc : c = '\n'
  · subst hc
    constructor
    · rw [splitLines_cons_newline, splitLines_cons_newline]
      rfl
    · rw [splitLines_cons_newline, splitLines_cons_newline]
      simp only [List.tail_cons]
      exact lineInv_filter_eq h
  · obtain ⟨h1, h2⟩ := h
    cases hs₁ : splitLines l₁ with
    | nil => exact absurd hs₁ (splitLines_ne_nil l₁)
    | cons a s₁ =>
      cases hs₂ : splitLines l₂ with
      | nil => exact absurd hs₂ (splitLines_ne_nil l₂)
      | cons b s₂ =>
        rw [hs₁, hs₂] at h1 h2
        simp only [List.head?_cons, Option.some.injEq] at h1
        simp only [List.tail_cons] at h2
        subst h1
        constructor
        · rw [splitLines_cons _ _ hc, splitLines_cons _ _ hc, hs₁, hs₂]
          rfl
        · rw [splitLines_cons _ _ hc, splitLines_cons _ _ hc, hs₁, hs₂]
          simpa using h2

theorem pass3_lineInv (l : List Char) : lineInv (pass3 l) l := by
  induction l using pass3.induct with
  | case1 =>
    rw [pass3]
    exact lineInv_refl []
  | case2 c rest h ih =>
    rw [pass3, if_pos h]
    obtain ⟨hc, rrest, hr⟩ : c = '\n' ∧ ∃ rrest, rest = '\n' :: '\n' :: rrest := by
      cases rest with
      | nil => simp [List.take] at h
      | cons c2 r2 =>
        cases r2 with
        | nil => simp [List.take] at h
        | cons c3 r3 =>
          simp only [List.take, List.cons.injEq, and_true] at h
          exact ⟨h.1, r3, by rw [h.2.1, h.2.2]⟩
    subst hc
    subst hr
    have hdw : ('\n' :: '\n' :: rrest).dropWhile (· = '\n') =
        rrest.dropWhile (· = '\n') := by simp [List.dropWhile]
    rw [hdw] at ih ⊢
    have hsplit : rrest = rrest.takeWhile (· = '\n') ++ rrest.dropWhile (· = '\n') :=
      (List.takeWhile_append_dropWhile _ _).symm
    have hmem : ∀ d ∈ rrest.takeWhile (· = '\n'), d = '\n' := by
      intro d hd
      simpa using List.mem_takeWhile_imp hd
    constructor
    · simp only [splitLines_cons_newline]
      rfl
    · simp only [splitLines_cons_newline, List.tail_cons]
      conv_rhs => rw [hsplit]
      rw [splitLines_replicate_newline _ _ hmem]
      have hrep : (List.replicate (rrest.takeWhile (· = '\n')).length
          ([] : List Char)).filter (fun s => !s.isEmpty) = [] := by
        rw [List.filter_replicate]
        simp
      simp only [List.filter_cons, List.filter_append, hrep]
      simpa using lineInv_filter_eq ih
  | case3 c rest h ih =>
    rw [pass3, if_neg h]
    exact lineInv_cons c ih

theorem filter_nonempty_nil_cons (x : List (List Char)) :
    (([] : List Char) :: x).filter (fun s => !s.isEmpty) =
      x.filter (fun s => !s.isEmpty) := by
  simp

theorem take_takeWhile_length {α : Type} (p : α → Bool) (l : List α) :
    l.take (l.takeWhile p).length = l.takeWhile p := by
  induction l with
  | nil => rfl
  | cons c rest ih =>
    by_cases h : p c
    · simp [List.takeWhile_cons, h, List.take_succ_cons, ih]
    · simp [List.takeWhile_cons, h]

theorem no_newline_take_countHash (l : List Char) : '\n' ∉ l.take (countHash l) := by
  rw [countHash, take_takeWhile_length]
  intro hm
  have := List.mem_takeWhile_imp hm
  simp at this

theorem pass1_lineInv (l : List Char) : lineInv (pass1 l) l := by
  induction l using pass1.induct with
  | case1 =>
    rw [pass1]
    exact lineInv_refl []
  | case2 c =>
    rw [pass1]
    exact lineInv_refl [c]
  | case3 c c2 rest h r ih =>
    obtain ⟨hc, hc2, hhs⟩ := h
    subst hc2
    rw [pass1, if_pos ⟨hc, rfl, hhs⟩]
    dsimp only at ih ⊢
    simp only [headingStart, Bool.and_eq_true, decide_eq_true_eq] at hhs
    cases hd : rest.drop (countHash rest) with
    | nil =>
      rw [hd] at hhs
      simp at hhs
    | cons ws R =>
      rw [hd] at hhs
      obtain ⟨⟨h1, h6⟩, hws⟩ := hhs
      have hrest : rest = rest.take (countHash rest) ++ ws :: R := by
        conv_lhs => rw [← List.take_append_drop (countHash rest) rest]
        rw [hd]
      have hHn : '\n' ∉ rest.take (countHash rest) := no_newline_take_countHash rest
      have htake : rest.take (countHash rest + 1) =
          rest.take (countHash rest) ++ [ws] := by
        rw [List.take_add, hd]
        rfl
      have hdrop : rest.drop (countHash rest + 1) = R := by
        rw [← List.drop_drop 1 (countHash rest) rest, hd]
        rfl
      rw [htake, hdrop]
      rw [hdrop] at ih
      conv_rhs => rw [hrest]
      by_cases hwsn : ws = '\n'
      · subst hwsn
        constructor
        · rw [splitLines_cons_cons_newline _ _ hc, splitLines_cons_cons_newline _ _ hc,
            splitLines_cons_newline]
          simp only [List.append_assoc, List.cons_append, List.nil_append]
          rw [splitLines_append, splitLines_append,
            splitLines_no_newline _ hHn]
          rfl
        · rw [splitLines_cons_cons_newline _ _ hc, splitLines_cons_cons_newline _ _ hc,
            splitLines_cons_newline]
          simp only [List.append_assoc, List.cons_append, List.nil_append]
          rw [splitLines_append, splitLines_append,
            splitLines_no_newline _ hHn]
          have hfe := lineInv_filter_eq ih
          simp only [List.tail_cons, List.singleton_append, filter_nonempty_nil_cons]
          exact filter_cons_congr _ _ hfe
      · constructor
        · rw [splitLines_cons_cons_newline _ _ hc, splitLines_cons_cons_newline _ _ hc,
            splitLines_cons_newline]
          have hA : '\n' ∉ rest.take (countHash rest) ++ [ws] := by
            intro hm
            rcases List.mem_append.mp hm with hm | hm
            · exact hHn hm
            · simp at hm
              exact hwsn hm.symm
          rw [show rest.take (countHash rest) ++ [ws] ++ pass1 R =
              (rest.take (countHash rest) ++ [ws]) ++ pass1 R by simp,
            show rest.take (countHash rest) ++ ws :: R =
              (rest.take (countHash rest) ++ [ws]) ++ R by simp,
            splitLines_append_no_newline _ _ hA, splitLines_append_no_newline _ _ hA]
          obtain ⟨ih1, ih2⟩ := ih
          cases hsR : splitLines R with
          | nil => exact absurd hsR (splitLines_ne_nil R)
          | cons hR tR =>
            cases hsR' : splitLines (pass1 R) with
            | nil => exact absurd hsR' (splitLines_ne_nil (pass1 R))
            | cons hR' tR' =>
              rfl
        · rw [splitLines_cons_cons_newline _ _ hc, splitLines_cons_cons_newline _ _ hc,
            splitLines_cons_newline]
          have hA : '\n' ∉ rest.take (countHash rest) ++ [ws] := by
            intro hm
            rcases List.mem_append.mp hm with hm | hm
            · exact hHn hm
            · simp at hm
              exact hwsn hm.symm
          rw [show rest.take (countHash rest) ++ [ws] ++ pass1 R =
              (rest.take (countHash rest) ++ [ws]) ++ pass1 R by simp,
            show rest.take (countHash rest) ++ ws :: R =
              (rest.take (countHash rest) ++ [ws]) ++ R by simp,
            splitLines_append_no_newline _ _ hA, splitLines_append_no_newline _ _ hA]
          obtain ⟨ih1, ih2⟩ := ih
          cases hsR : splitLines R with
          | nil => exact absurd hsR (splitLines_ne_nil R)
          | cons hR tR =>
            cases hsR' : splitLines (pass1 R) with
            | nil => exact absurd hsR' (splitLines_ne_nil (pass1 R))
            | cons hR' tR' =>
              rw [hsR, hsR'] at ih1 ih2
              simp only [List.head?_cons, Option.some.injEq] at ih1
              simp only [List.tail_cons] at ih2
              rw [ih1]
              simp only [List.modifyHead, List.tail_cons, filter_nonempty_nil_cons]
              exact filter_cons_congr _ _ ih2
  | case4 c c2 rest h ih =>
    rw [pass1, if_neg h]
    exact lineInv_cons c ih

theorem drop_takeWhile_length {α : Type} (p : α → Bool) (l : List α) :
    l.drop (l.takeWhile p).length = l.dropWhile p := by
  induction l with
  | nil => rfl
  | cons c rest ih =>
    by_cases h : p c
    · simp [List.takeWhile_cons, List.dropWhile_cons, h, ih]
    · simp [List.takeWhile_cons, List.dropWhile_cons, h]

theorem dropWhile_eq_cons_head {α : Type} (p : α → Bool) (l : List α) (a : α)
    (t : List α) (h : l.dropWhile p = a :: t) : p a = false := by
  induction l with
  | nil => exact absurd h (by simp)
  | cons c rest ih =>
    rw [List.dropWhile_cons] at h
    by_cases hc : p c
    · rw [if_pos hc] at h
      exact ih h
    · rw [if_neg hc] at h
      cases h
      exact Bool.of_not_eq_true hc

theorem no_newline_takeWhile_ne (l : List Char) :
    '\n' ∉ l.takeWhile (fun x => decide (x ≠ '\n')) := by
  intro hm
  have := List.mem_takeWhile_imp hm
  simp at this

theorem pass2_lineInv (l : List Char) : lineInv (pass2 l) l := by
  induction l using pass2.induct with
  | case1 =>
    rw [pass2]
    exact lineInv_refl []
  | case2 c rest h r u k ih =>
    rw [pass2, if_pos h]
    dsimp only at ih ⊢
    simp only [matchAfterHeading, Bool.and_eq_true, decide_eq_true_eq] at h
    cases hd : (c :: rest).drop (countHash (c :: rest)) with
    | nil =>
      rw [hd] at h
      simp at h
    | cons ws t =>
      rw [hd] at h
      obtain ⟨⟨h1, h6⟩, h'⟩ := h
      simp only [Bool.and_eq_true] at h'
      obtain ⟨hws, hmatch⟩ := h'
      cases hdw : t.dropWhile (fun x => decide (x ≠ '\n')) with
      | nil =>
        rw [hdw] at hmatch
        simp at hmatch
      | cons n1 t2 =>
        have hn1 : n1 = '\n' := by
          have := dropWhile_eq_cons_head _ _ _ _ hdw
          simpa using this
        subst hn1
        cases t2 with
        | nil =>
          rw [hdw] at hmatch
          simp at hmatch
        | cons d v =>
          rw [hdw] at hmatch
          simp only [Bool.and_eq_true, decide_eq_true_eq] at hmatch
          obtain ⟨hdh, hdn⟩ := hmatch
          have hdt : (c :: rest).drop (countHash (c :: rest) + 1) = t := by
            rw [← List.drop_drop 1 (countHash (c :: rest)) (c :: rest), hd]
            rfl
          have ht : t = t.takeWhile (fun x => decide (x ≠ '\n')) ++ '\n' :: d :: v := by
            conv_lhs => rw [← List.takeWhile_append_dropWhile
              (fun x => decide (x ≠ '\n')) t]
            rw [hdw]
          have hLdecomp : c :: rest =
              (c :: rest).take (countHash (c :: rest)) ++
                ws :: (t.takeWhile (fun x => decide (x ≠ '\n')) ++ '\n' :: d :: v) := by
            conv_lhs => rw [← List.take_append_drop (countHash (c :: rest)) (c :: rest)]
            rw [hd]
            conv_lhs => rw [ht]
          have htk : (c :: rest).take (countHash (c :: rest) + 1 +
              (((c :: rest).drop (countHash (c :: rest) + 1)).takeWhile
                (fun x => decide (x ≠ '\n'))).length + 1) =
              (c :: rest).take (countHash (c :: rest)) ++
                ws :: (t.takeWhile (fun x => decide (x ≠ '\n')) ++ ['\n']) := by
            rw [hdt]
            rw [show countHash (c :: rest) + 1 +
                (t.takeWhile (fun x => decide (x ≠ '\n'))).length + 1 =
                countHash (c :: rest) +
                  ((t.takeWhile (fun x => decide (x ≠ '\n'))).length + 1 + 1) by omega]
            rw [List.take_add, hd, List.take_succ_cons, List.take_add,
              take_takeWhile_length, drop_takeWhile_length, hdw, List.take_succ_cons,
              List.take_zero]
          have hdk1 : (c :: rest).drop (countHash (c :: rest) + 1 +
              (((c :: rest).drop (countHash (c :: rest) + 1)).takeWhile
                (fun x => decide (x ≠ '\n'))).length + 1) = d :: v := by
            rw [hdt]
            rw [show countHash (c :: rest) + 1 +
                (t.takeWhile (fun x => decide (x ≠ '\n'))).length + 1 =
                countHash (c :: rest) +
                  ((t.takeWhile (fun x => decide (x ≠ '\n'))).length + 1 + 1) by omega]
            rw [← List.drop_drop ((t.takeWhile (fun x => decide (x ≠ '\n'))).length + 1 + 1)
              (countHash (c :: rest)) (c :: rest), hd, List.drop_succ_cons,
              ← List.drop_drop 1 ((t.takeWhile (fun x => decide (x ≠ '\n'))).length) t,
              drop_takeWhile_length, hdw]
            rfl
          have hdk2 : (c :: rest).drop (countHash (c :: rest) + 1 +
              (((c :: rest).drop (countHash (c :: rest) + 1)).takeWhile
                (fun x => decide (x ≠ '\n'))).length + 2) = v := by
            rw [show countHash (c :: rest) + 1 +
                (((c :: rest).drop (countHash (c :: rest) + 1)).takeWhile
                  (fun x => decide (x ≠ '\n'))).length + 2 =
                countHash (c :: rest) + 1 +
                  (((c :: rest).drop (countHash (c :: rest) + 1)).takeWhile
                    (fun x => decide (x ≠ '\n'))).length + 1 + 1 by omega]
            rw [← List.drop_drop 1 (countHash (c :: rest) + 1 +
              (((c :: rest).drop (countHash (c :: rest) + 1)).takeWhile
                (fun x => decide (x ≠ '\n'))).length + 1) (c :: rest), hdk1]
            rfl
          rw [htk, hdk1, hdk2]
          rw [hdk2] at ih
          have hHn : '\n' ∉ (c :: rest).take (countHash (c :: rest)) :=
            no_newline_take_countHash (c :: rest)
          have hUn : '\n' ∉ t.takeWhile (fun x => decide (x ≠ '\n')) :=
            no_newline_takeWhile_ne t
          obtain ⟨ih1, ih2⟩ := ih
          by_cases hwsn : ws = '\n'
          · subst hwsn
            constructor
            · conv_rhs => rw [hLdecomp]
              simp only [List.append_assoc, List.cons_append, List.singleton_append,
                List.nil_append, List.take_succ_cons, List.take_zero]
              simp only [splitLines_append]
              rw [splitLines_no_newline _ hHn, splitLines_no_newline _ hUn]
              rfl
            · conv_rhs => rw [hLdecomp]
              simp only [List.append_assoc, List.cons_append, List.singleton_append,
                List.nil_append, List.take_succ_cons, List.take_zero]
              simp only [splitLines_append]
              rw [splitLines_no_newline _ hHn, splitLines_no_newline _ hUn]
              simp only [List.singleton_append, List.cons_append, List.tail_cons]
              apply filter_cons_congr
              simp only [List.nil_append]
              rw [splitLines_cons_newline, filter_nonempty_nil_cons,
                splitLines_cons _ _ hdn, splitLines_cons _ _ hdn]
              cases hsv : splitLines v with
              | nil => exact absurd hsv (splitLines_ne_nil v)
              | cons hv tv =>
                cases hsv' : splitLines (pass2 v) with
                | nil => exact absurd hsv' (splitLines_ne_nil (pass2 v))
                | cons hv' tv' =>
                  rw [hsv, hsv'] at ih1 ih2
                  simp only [List.head?_cons, Option.some.injEq] at ih1
                  simp only [List.tail_cons] at ih2
                  subst ih1
                  simp only [List.modifyHead]
                  exact filter_cons_congr _ _ ih2
          · have hA : '\n' ∉ (c :: rest).take (countHash (c :: rest)) ++
                ws :: t.takeWhile (fun x => decide (x ≠ '\n')) := by
              intro hm
              rcases List.mem_append.mp hm with hm | hm
              · exact hHn hm
              · rcases List.mem_cons.mp hm with hm | hm
                · exact hwsn hm.symm
                · exact hUn hm
            have hLrw : (c :: rest).take (countHash (c :: rest)) ++
                ws :: (t.takeWhile (fun x => decide (x ≠ '\n')) ++ ['\n']) ++
                  '\n' :: ((d :: v).take 1 ++ pass2 v) =
                ((c :: rest).take (countHash (c :: rest)) ++
                  ws :: t.takeWhile (fun x => decide (x ≠ '\n'))) ++
                    '\n' :: '\n' :: d :: pass2 v := by
              simp [List.take_succ_cons]
            have hRrw : (c :: rest).take (countHash (c :: rest)) ++
                ws :: (t.takeWhile (fun x => decide (x ≠ '\n')) ++ '\n' :: d :: v) =
                ((c :: rest).take (countHash (c :: rest)) ++
                  ws :: t.takeWhile (fun x => decide (x ≠ '\n'))) ++ '\n' :: d :: v := by
              simp
            constructor
            · conv_rhs => rw [hLdecomp, hRrw]
              rw [hLrw]
              rw [splitLines_append_no_newline _ _ hA, splitLines_append_no_newline _ _ hA]
              rw [splitLines_cons_newline, splitLines_cons_newline, splitLines_cons_newline,
                splitLines_cons _ _ hdn, splitLines_cons _ _ hdn]
              rfl
            · conv_rhs => rw [hLdecomp, hRrw]
              rw [hLrw]
              rw [splitLines_append_no_newline _ _ hA, splitLines_append_no_newline _ _ hA]
              rw [splitLines_cons_newline, splitLines_cons_newline, splitLines_cons_newline,
                splitLines_cons _ _ hdn, splitLines_cons _ _ hdn]
              cases hsv : splitLines v with
              | nil => exact absurd hsv (splitLines_ne_nil v)
              | cons hv tv =>
                cases hsv' : splitLines (pass2 v) with
                | nil => exact absurd hsv' (splitLines_ne_nil (pass2 v))
                | cons hv' tv' =>
                  rw [hsv, hsv'] at ih1 ih2
                  simp only [List.head?_cons, Option.some.injEq] at ih1
                  simp only [List.tail_cons] at ih2
                  rw [ih1]
                  simp only [List.modifyHead, List.tail_cons, filter_nonempty_nil_cons]
                  exact filter_cons_congr _ _ ih2
  | case3 c rest h ih =>
    rw [pass2, if_neg h]
    exact lineInv_cons c ih

theorem filter_subsume (p q : List Char → Bool)
    (h : ∀ a, p a = true → q a = true) (L : List (List Char)) :
    (L.filter q).filter p = L.filter p := by
  induction L with
  | nil => rfl
  | cons a L ih =>
    by_cases hq : q a = true
    · by_cases hp : p a = true
      · simp [List.filter_cons, hq, hp, ih]
      · simp [List.filter_cons, hq, hp, ih]
    · have hp : ¬p a = true := fun hp => hq (h a hp)
      simp [List.filter_cons, hq, hp, ih]

theorem trim_nil : trim [] = [] := rfl

theorem nonBlank_imp_nonEmpty (s : List Char) :
    (!(trim s).isEmpty) = true → (!s.isEmpty) = true := by
  intro h
  cases s with
  | nil => exact absurd h (by simp [trim_nil])
  | cons c t => simp

theorem nonBlankLines_of_filter_nonempty {l₁ l₂ : List Char}
    (h : (splitLines l₁).filter (fun s => !s.isEmpty) =
      (splitLines l₂).filter (fun s => !s.isEmpty)) :
    nonBlankLines l₁ = nonBlankLines l₂ := by
  rw [nonBlankLines, nonBlankLines,
    ← filter_subsume (fun s => !(trim s).isEmpty) (fun s => !s.isEmpty)
      nonBlank_imp_nonEmpty (splitLines l₁),
    ← filter_subsume (fun s => !(trim s).isEmpty) (fun s => !s.isEmpty)
      nonBlank_imp_nonEmpty (splitLines l₂), h]

theorem ensureProperHeadingSpacing_nonBlankLines (l : List Char) :
    nonBlankLines (ensureProperHeadingSpacing l) = nonBlankLines l := by
  apply nonBlankLines_of_filter_nonempty
  rw [ensureProperHeadingSpacing]
  calc (splitLines (pass3 (pass2 (pass1 l)))).filter (fun s => !s.isEmpty)
      = (splitLines (pass2 (pass1 l))).filter (fun s => !s.isEmpty) :=
        lineInv_filter_eq (pass3_lineInv _)
    _ = (splitLines (pass1 l)).filter (fun s => !s.isEmpty) :=
        lineInv_filter_eq (pass2_lineInv _)
    _ = (splitLines l).filter (fun s => !s.isEmpty) :=
        lineInv_filter_eq (pass1_lineInv _)

/-! ### Paragraph splitting and the serialize/parse round trip -/

theorem splitPP_ne_nil (l : List Char) : splitPP l ≠ [] := by
  rw [splitPP.eq_def]
  split
  · simp
  · simp
  · rename_i c rest hg
    cases h : splitPP rest with
    | nil => simp
    | cons p ps => simp

theorem splitPP_cons_newlines (rest : List Char) :
    splitPP ('\n' :: '\n' :: rest) = [] :: splitPP rest := rfl

theorem splitPP_cons_fallthrough (c : Char) (rest : List Char)
    (hg : ∀ r1, c = '\n' → rest = '\n' :: r1 → False)
    (p : List Char) (ps : List (List Char)) (hp : splitPP rest = p :: ps) :
    splitPP (c :: rest) = (c :: p) :: ps := by
  rw [splitPP.eq_def]
  split
  · rename_i heq
    exact absurd heq (by simp)
  · rename_i r1 heq
    simp only [List.cons.injEq] at heq
    exact (hg r1 heq.1 heq.2).elim
  · rename_i c' rest' hg' heq
    simp only [List.cons.injEq] at heq
    obtain ⟨hc, hr⟩ := heq
    subst hc
    subst hr
    rw [hp]

theorem interBlank_cons (s : List (List Char)) (m : List (List (List Char)))
    (h : m ≠ []) : interBlank (s :: m) = s ++ [] :: interBlank m := by
  cases m with
  | nil => exact absurd rfl h
  | cons s2 ss => rfl

theorem splitLines_splitPP (l : List Char) :
    splitLines l = interBlank ((splitPP l).map splitLines) := by
  induction l using splitPP.induct with
  | case1 => rfl
  | case2 rest ih =>
    rw [splitPP_cons_newlines, splitLines_cons_newline, splitLines_cons_newline, ih,
      List.map_cons,
      interBlank_cons _ _ (by simp [splitPP_ne_nil rest])]
    rfl
  | case3 c rest hg hnil ih => exact absurd hnil (splitPP_ne_nil rest)
  | case4 c rest hg p ps hp ih =>
    rw [splitPP_cons_fallthrough c rest hg p ps hp]
    rw [hp] at ih
    by_cases hc : c = '\n'
    · subst hc
      rw [splitLines_cons_newline, ih]
      cases ps with
      | nil =>
        simp only [List.map_cons, List.map_nil]
        rw [show interBlank [splitLines p] = splitLines p from rfl,
          show interBlank [splitLines ('\n' :: p)] = splitLines ('\n' :: p) from rfl,
          splitLines_cons_newline]
      | cons q qs =>
        simp only [List.map_cons]
        rw [splitLines_cons_newline,
          interBlank_cons (splitLines p) (splitLines q :: List.map splitLines qs)
            (by simp),
          interBlank_cons ([] :: splitLines p) (splitLines q :: List.map splitLines qs)
            (by simp)]
        rfl
    · rw [splitLines_cons _ _ hc, ih]
      cases ps with
      | nil =>
        simp only [List.map_cons, List.map_nil]
        rw [show interBlank [splitLines p] = splitLines p from rfl,
          show interBlank [splitLines (c :: p)] = splitLines (c :: p) from rfl,
          splitLines_cons _ _ hc]
      | cons q qs =>
        simp only [List.map_cons]
        rw [splitLines_cons _ _ hc,
          interBlank_cons (splitLines p) (splitLines q :: List.map splitLines qs)
            (by simp),
          interBlank_cons ((splitLines p).modifyHead (c :: ·))
            (splitLines q :: List.map splitLines qs) (by simp),
          modifyHead_append_of_ne_nil _ _ _ (splitLines_ne_nil p)]

theorem filter_nonblank_nil_cons (x : List (List Char)) :
    (([] : List Char) :: x).filter (fun s => !(trim s).isEmpty) =
      x.filter (fun s => !(trim s).isEmpty) := by
  simp [trim_nil]

theorem filter_nonblank_interBlank (M : List (List (List Char))) :
    (interBlank M).filter (fun s => !(trim s).isEmpty) =
      (M.map (fun s => s.filter (fun x => !(trim x).isEmpty))).flatten := by
  induction M with
  | nil => rfl
  | cons s M ih =>
    cases M with
    | nil => simp [interBlank]
    | cons s2 ss =>
      rw [interBlank_cons _ _ (by simp), List.filter_append, filter_nonblank_nil_cons, ih]
      simp

theorem nonBlankLines_paragraphs (l : List Char) :
    nonBlankLines l = ((splitPP l).map nonBlankLines).flatten := by
  rw [nonBlankLines, splitLines_splitPP, filter_nonblank_interBlank, List.map_map]
  rfl

theorem nonBlankLines_joinParagraphs (ps : List (List Char)) :
    nonBlankLines (joinParagraphs ps) = (ps.map nonBlankLines).flatten := by
  induction ps with
  | nil => rfl
  | cons p ps ih =>
    cases ps with
    | nil => simp [joinParagraphs, nonBlankLines]
    | cons q ps' =>
      rw [show joinParagraphs (p :: q :: ps') =
          p ++ '\n' :: ('\n' :: joinParagraphs (q :: ps')) from rfl]
      rw [nonBlankLines, splitLines_append, splitLines_cons_newline, List.filter_append,
        filter_nonblank_nil_cons]
      rw [List.map_cons, List.flatten_cons, ← ih]
      rfl

theorem all_ws_of_trim_nil (p : List Char) (h : trim p = []) :
    ∀ c ∈ p, c.isWhitespace := by
  rw [trim, trimRight, trimLeft] at h
  have h1 : (p.dropWhile Char.isWhitespace).reverse.dropWhile Char.isWhitespace = [] := by
    rcases List.eq_nil_or_concat
      ((p.dropWhile Char.isWhitespace).reverse.dropWhile Char.isWhitespace) with he | ⟨l', a, he⟩
    · exact he
    · rw [he] at h
      simp at h
  have h2 : ∀ c ∈ (p.dropWhile Char.isWhitespace).reverse, c.isWhitespace := by
    intro c hc
    exact List.dropWhile_eq_nil_iff.mp h1 c hc
  have h3 : ∀ c ∈ p.dropWhile Char.isWhitespace, c.isWhitespace := by
    intro c hc
    exact h2 c (List.mem_reverse.mpr hc)
  intro c hc
  have hc' : c ∈ p.takeWhile Char.isWhitespace ++ p.dropWhile Char.isWhitespace := by
    rw [List.takeWhile_append_dropWhile]
    exact hc
  rcases List.mem_append.mp hc' with hm | hm
  · exact List.mem_takeWhile_imp hm
  · exact h3 c hm

theorem trim_nil_of_all_ws (p : List Char) (h : ∀ c ∈ p, c.isWhitespace) :
    trim p = [] := by
  rw [trim, trimLeft, trimRight]
  rw [List.dropWhile_eq_nil_iff.mpr h]
  rfl

theorem mem_splitLines_mem (l : List Char) :
    ∀ x ∈ splitLines l, ∀ c ∈ x, c ∈ l := by
  induction l with
  | nil =>
    intro x hx c hc
    rw [splitLines_nil] at hx
    simp at hx
    subst hx
    simp at hc
  | cons a rest ih =>
    by_cases ha : a = '\n'
    · subst ha
      rw [splitLines_cons_newline]
      intro x hx c hc
      rcases List.mem_cons.mp hx with hx | hx
      · subst hx
        simp at hc
      · exact List.mem_cons_of_mem _ (ih x hx c hc)
    · rw [splitLines_cons _ _ ha]
      cases hs : splitLines rest with
      | nil => exact absurd hs (splitLines_ne_nil rest)
      | cons p ps =>
        intro x hx c hc
        simp only [List.modifyHead] at hx
        rcases List.mem_cons.mp hx with hx | hx
        · subst hx
          rcases List.mem_cons.mp hc with hc | hc
          · exact hc ▸ List.mem_cons_self _ _
          · exact List.mem_cons_of_mem _ (ih p (hs ▸ List.mem_cons_self _ _) c hc)
        · exact List.mem_cons_of_mem _ (ih x (hs ▸ List.mem_cons_of_mem _ hx) c hc)

theorem nonBlankLines_of_blank (p : List Char) (h : trim p = []) :
    nonBlankLines p = [] := by
  rw [nonBlankLines, List.filter_eq_nil_iff]
  intro x hx
  have hws : ∀ c ∈ x, c.isWhitespace := by
    intro c hc
    exact all_ws_of_trim_nil p h c (mem_splitLines_mem p x hx c hc)
  simp [trim_nil_of_all_ws x hws]

theorem flatten_nonBlankLines_filter (ps : List (List Char)) :
    (((ps.filter (fun p => !(trim p).isEmpty)).map nonBlankLines)).flatten =
      (ps.map nonBlankLines).flatten := by
  induction ps with
  | nil => rfl
  | cons p ps ih =>
    by_cases hp : (trim p).isEmpty = true
    · rw [List.filter_cons, List.map_cons, List.flatten_cons,
        nonBlankLines_of_blank p (by simpa using hp), hp]
      simpa using ih
    · rw [List.filter_cons]
      simp only [hp, Bool.not_false, if_pos]
      rw [List.map_cons, List.map_cons, List.flatten_cons, List.flatten_cons, ih]

/-! ### `pass3` output never contains three consecutive newlines -/

theorem pass3_head (l : List Char) : (pass3 l).head? = l.head? := by
  induction l using pass3.induct with
  | case1 => rw [pass3]
  | case2 c rest h ih =>
    rw [pass3, if_pos h]
    have hc : c = '\n' := by
      cases rest with
      | nil => simp [List.take] at h
      | cons c2 r2 =>
        cases r2 with
        | nil => simp [List.take] at h
        | cons c3 r3 =>
          simp only [List.take, List.cons.injEq, and_true] at h
          exact h.1
    rw [hc]
    rfl
  | case3 c rest h ih =>
    rw [pass3, if_neg h]
    rfl

theorem containsTriple_cons_ne (c : Char) (x : List Char) (hc : c ≠ '\n') :
    containsTripleNewline (c :: x) = containsTripleNewline x := by
  rw [containsTripleNewline]
  rw [if_neg]
  intro hcontra
  cases x with
  | nil => simp [List.take] at hcontra
  | cons a as =>
    cases as with
    | nil => simp [List.take] at hcontra
    | cons b bs =>
      simp only [List.take, List.cons.injEq] at hcontra
      exact hc hcontra.1

theorem containsTriple_newline_cons_head (x : List Char)
    (h : ∀ ch, x.head? = some ch → ch ≠ '\n') :
    containsTripleNewline ('\n' :: x) = containsTripleNewline x := by
  cases x with
  | nil => rfl
  | cons a as =>
    have ha : a ≠ '\n' := h a rfl
    rw [containsTripleNewline, if_neg]
    intro hcontra
    cases as with
    | nil => simp [List.take] at hcontra
    | cons b bs =>
      simp only [List.take, List.cons.injEq] at hcontra
      exact ha hcontra.2.1

theorem containsTriple_two_newlines_head (x : List Char)
    (h : ∀ ch, x.head? = some ch → ch ≠ '\n') :
    containsTripleNewline ('\n' :: '\n' :: x) = containsTripleNewline x := by
  cases x with
  | nil => rfl
  | cons a as =>
    have ha : a ≠ '\n' := h a rfl
    rw [containsTripleNewline, if_neg]
    · rw [containsTriple_newline_cons_head _ h]
    · intro hcontra
      simp only [List.take, List.cons.injEq] at hcontra
      exact ha hcontra.2.2.1

theorem containsTriple_of_cons (a : Char) (x : List Char)
    (h : containsTripleNewline (a :: x) = false) :
    containsTripleNewline x = false := by
  rw [containsTripleNewline] at h
  by_cases hcond : (a :: x).take 3 = ['\n', '\n', '\n']
  · rw [if_pos hcond] at h
    exact absurd h (by simp)
  · rwa [if_neg hcond] at h

theorem head_dropWhile_newline (rest : List Char) :
    ∀ ch, (rest.dropWhile (· = '\n')).head? = some ch → ch ≠ '\n' := by
  intro ch hch
  cases hx : rest.dropWhile (· = '\n') with
  | nil =>
    rw [hx] at hch
    simp at hch
  | cons a as =>
    rw [hx] at hch
    simp only [List.head?_cons, Option.some.injEq] at hch
    subst hch
    have := dropWhile_eq_cons_head _ _ _ _ hx
    simpa using this

theorem pass3_no_triple (l : List Char) :
    containsTripleNewline (pass3 l) = false := by
  induction l using pass3.induct with
  | case1 =>
    rw [pass3]
    rfl
  | case2 c rest h ih =>
    rw [pass3, if_pos h]
    rw [containsTriple_two_newlines_head _ (by
      intro ch hch
      rw [pass3_head] at hch
      exact head_dropWhile_newline rest ch hch)]
    exact ih
  | case3 c rest h ih =>
    rw [pass3, if_neg h]
    by_cases hc : c = '\n'
    · subst hc
      cases rest with
      | nil => rw [pass3]; rfl
      | cons a as =>
        by_cases ha : a = '\n'
        · subst ha
          have hastart : ∀ ch, as.head? = some ch → ch ≠ '\n' := by
            intro ch hch
            intro hne
            subst hne
            apply h
            cases as with
            | nil => simp at hch
            | cons b bs =>
              simp only [List.head?_cons, Option.some.injEq] at hch
              subst hch
              rfl
          have hp3 : pass3 ('\n' :: as) = '\n' :: pass3 as := by
            rw [pass3, if_neg]
            intro hcontra
            cases as with
            | nil => simp [List.take] at hcontra
            | cons b bs =>
              simp only [List.take, List.cons.injEq] at hcontra
              exact (hastart b rfl) hcontra.2.1
          rw [hp3]
          rw [containsTriple_two_newlines_head _ (by
            intro ch hch
            rw [pass3_head] at hch
            exact hastart ch hch)]
          rw [hp3] at ih
          exact containsTriple_of_cons _ _ ih
        · rw [containsTriple_newline_cons_head _ (by
            intro ch hch
            rw [pass3_head] at hch
            simp only [List.head?_cons, Option.some.injEq] at hch
            subst hch
            exact ha)]
          exact ih
    · rw [containsTriple_cons_ne _ _ hc]
      exact ih

/-! ### Claims C1 and C2 -/

/-- C2, counterexample: the claim says the heading-spacing normalization
ensures exactly one blank line before and after every heading line and is
idempotent.  On the input `"x\n# \n## b"` a second application changes the
output again (the global regex scan resumes after a match and misses the
overlapping occurrence at the heading `"# "`), and the once-normalized
output contains the heading line `"# "` followed directly by the non-blank
line `"## b"` with no blank line in between. -/
theorem C2_idempotence_counterexample :
    ensureProperHeadingSpacing (ensureProperHeadingSpacing "x\n# \n## b".data) ≠
      ensureProperHeadingSpacing "x\n# \n## b".data ∧
    splitLines (ensureProperHeadingSpacing "x\n# \n## b".data) =
      ["x".data, [], "# ".data, "## b".data] := by
  constructor
  · simp [ensureProperHeadingSpacing, pass1, pass2, pass3, headingStart,
      matchAfterHeading, countHash, Char.ext_iff]
  · simp [ensureProperHeadingSpacing, pass1, pass2, pass3, headingStart,
      matchAfterHeading, countHash, splitLines, splitOnChar, Char.ext_iff]

/-- C2, amended: for every string, the normalization applied by
serialization collapses newline runs so that its output never contains
three consecutive newlines, and it preserves the sequence of non-blank
lines verbatim (it only inserts or deletes blank lines); it does not
guarantee a blank line around every heading line and it is not idempotent
(see the counterexample). -/
theorem C2_heading_spacing_normalization (l : List Char) :
    containsTripleNewline (ensureProperHeadingSpacing l) = false ∧
    nonBlankLines (ensureProperHeadingSpacing l) = nonBlankLines l :=
  ⟨pass3_no_triple _, ensureProperHeadingSpacing_nonBlankLines l⟩

/-- C1, counterexample: the claim says that re-running parse-then-serialize
on serialized output is a fixed point.  For the document `"x\n# \n## b"`
the second serialization differs from the first (the first normalization
pass misses the blank line needed before `"## b"`, and the second run
inserts it). -/
theorem C1_fixed_point_counterexample :
    reconstructMarkdown (parseDocument
        (reconstructMarkdown (parseDocument "x\n# \n## b".data))) ≠
      reconstructMarkdown (parseDocument "x\n# \n## b".data) := by
  simp [reconstructMarkdown, parseDocument, splitPP, joinParagraphs, trim, trimLeft,
    trimRight, ensureProperHeadingSpacing, pass1, pass2, pass3, headingStart,
    matchAfterHeading, countHash, Char.ext_iff]

/-- C1, amended: for every document text, serializing the parsed document
(joining the retained raw paragraphs with `\n\n` and applying
heading-spacing normalization) preserves every visible sentence-line and
every `%%`-delimited annotation line verbatim and in order, changing only
blank-line spacing — the sequence of non-blank lines of the output equals
that of the input.  The fixed-point part of the original claim is false
(see the counterexample). -/
theorem C1_round_trip_preserves_lines (content : List Char) :
    nonBlankLines (reconstructMarkdown (parseDocument content)) = nonBlankLines content := by
  calc nonBlankLines (reconstructMarkdown (parseDocument content))
      = nonBlankLines (joinParagraphs
          ((splitPP content).filter (fun p => !(trim p).isEmpty))) := by
        rw [reconstructMarkdown,
          show (parseDocument content).rawParagraphs =
            (splitPP content).filter (fun p => !(trim p).isEmpty) from rfl]
        exact ensureProperHeadingSpacing_nonBlankLines _
    _ = (((splitPP content).filter (fun p => !(trim p).isEmpty)).map
          nonBlankLines).flatten := nonBlankLines_joinParagraphs _
    _ = ((splitPP content).map nonBlankLines).flatten := flatten_nonBlankLines_filter _
    _ = nonBlankLines content := (nonBlankLines_paragraphs content).symm

/-! ### Claim C9: the annotation-line predicate -/

/-- C9, counterexample: the claim requires the trimmed line to be long
enough to contain a matched pair of `%%` delimiters (length at least 4),
so that `"%%"` would not be an annotation line.  The code has no length
check: `"%%"` trims to itself, has length 2, and satisfies the predicate
(its `startsWith` and `endsWith` checks overlap). -/
theorem C9_counterexample :
    isAnnotationLine "%%".data = true ∧ (trim "%%".data).length = 2 := by
  decide

/-- C9, amended: the annotation-line predicate returns true iff the trimmed
line starts with `%%` and ends with `%%` — with no minimum length beyond
the two characters themselves, so the two delimiters may overlap and a line
whose trimmed content is just `"%%"` is an annotation line. -/
theorem C9_annotation_line_characterization (line : List Char) :
    isAnnotationLine line = true ↔
      (∃ s, trim line = '%' :: '%' :: s) ∧ (∃ t, trim line = t ++ ['%', '%']) := by
  rw [isAnnotationLine]
  simp only [Bool.and_eq_true, beq_iff_eq]
  constructor
  · rintro ⟨h1, h2⟩
    constructor
    · refine ⟨(trim line).drop 2, ?_⟩
      conv_lhs => rw [← List.take_append_drop 2 (trim line)]
      rw [h1]
      rfl
    · refine ⟨(trim line).take ((trim line).length - 2), ?_⟩
      conv_lhs => rw [← List.take_append_drop ((trim line).length - 2) (trim line)]
      rw [h2]
  · rintro ⟨⟨s, hs⟩, ⟨t, ht⟩⟩
    constructor
    · rw [hs]
      rfl
    · rw [ht]
      have hlen : (t ++ ['%', '%']).length - 2 = t.length := by
        simp
      rw [hlen, List.drop_left]

/-! ### Claims C10 and C3: toggling paragraph completion -/

theorem paragraphCompleteLine_no_newline : '\n' ∉ paragraphCompleteLine := by decide

theorem isAnnotationLine_paragraphCompleteLine :
    isAnnotationLine paragraphCompleteLine = true := by decide

theorem commentContent_paragraphCompleteLine :
    commentContent paragraphCompleteLine = PARAGRAPH_COMPLETE := by decide

/-- C10: toggling completion twice on a paragraph with no annotation lines
returns exactly the original raw text; the first call prepends the
`%% PARAGRAPH_COMPLETE %%` line and changes nothing else. -/
theorem C10_toggle_twice (p : List Char)
    (h : ∀ line ∈ splitLines p, isAnnotationLine line = false) :
    toggleParagraphCompletion p = paragraphCompleteLine ++ '\n' :: p ∧
      toggleParagraphCompletion (toggleParagraphCompletion p) = p := by
  have hcomments : paragraphHasComments p = false := by
    rw [paragraphHasComments, List.any_eq_false]
    intro x hx
    simp [h x hx]
  have hcompl : (splitLines p).any
      (fun l => isAnnotationLine l && commentContent l == PARAGRAPH_COMPLETE) = false := by
    rw [List.any_eq_false]
    intro x hx
    simp [h x hx]
  have hfilter : (splitLines p).filter
      (fun l => !(isAnnotationLine l && commentContent l == PARAGRAPH_COMPLETE)) =
      splitLines p := by
    rw [List.filter_eq_self]
    intro x hx
    simp [h x hx]
  have h1 : toggleParagraphCompletion p = paragraphCompleteLine ++ '\n' :: p := by
    rw [toggleParagraphCompletion]
    simp only [hcomments, hcompl, hfilter, Bool.not_false, Bool.and_self, if_pos]
    rw [joinLines_cons _ _ (splitLines_ne_nil p), joinLines_splitLines]
  refine ⟨h1, ?_⟩
  rw [h1]
  have hlines : splitLines (paragraphCompleteLine ++ '\n' :: p) =
      paragraphCompleteLine :: splitLines p := by
    rw [splitLines_append, splitLines_no_newline _ paragraphCompleteLine_no_newline]
    rfl
  rw [toggleParagraphCompletion]
  simp only [hlines]
  have hcomments2 : paragraphHasComments (paragraphCompleteLine ++ '\n' :: p) = false := by
    rw [paragraphHasComments, hlines, List.any_eq_false]
    intro x hx
    rcases List.mem_cons.mp hx with hx | hx
    · subst hx
      simp [commentContent_paragraphCompleteLine]
    · simp [h x hx]
  have hcompl2 : (paragraphCompleteLine :: splitLines p).any
      (fun l => isAnnotationLine l && commentContent l == PARAGRAPH_COMPLETE) = true := by
    rw [List.any_eq_true]
    exact ⟨paragraphCompleteLine, List.mem_cons_self _ _, by
      simp [isAnnotationLine_paragraphCompleteLine, commentContent_paragraphCompleteLine]⟩
  rw [hcomments2, hcompl2]
  simp only [Bool.not_false, Bool.not_true, Bool.and_false, if_neg (by simp : ¬false = true)]
  rw [List.filter_cons]
  simp only [isAnnotationLine_paragraphCompleteLine, commentContent_paragraphCompleteLine,
    beq_self_eq_true, Bool.and_self, Bool.not_true]
  rw [if_neg (by simp), hfilter, joinLines_splitLines]

/-- C10, witness. -/
theorem C10_toggle_twice_witness :
    toggleParagraphCompletion "First.\nSecond.".data =
        paragraphCompleteLine ++ '\n' :: "First.\nSecond.".data ∧
      toggleParagraphCompletion (toggleParagraphCompletion "First.\nSecond.".data) =
        "First.\nSecond.".data :=
  C10_toggle_twice "First.\nSecond.".data (by decide)

theorem toggle_of_hasComments (p : List Char) (h : paragraphHasComments p = true) :
    paragraphHasComments (toggleParagraphCompletion p) = true ∧
      paragraphIsComplete (toggleParagraphCompletion p) = false := by
  obtain ⟨w, hw, hwp⟩ := List.any_eq_true.mp h
  simp only [Bool.and_eq_true, bne_iff_ne] at hwp
  obtain ⟨hwann, hwne⟩ := hwp
  have hkeep : (!(isAnnotationLine w && commentContent w == PARAGRAPH_COMPLETE)) = true := by
    simp [hwne]
  have hne : (splitLines p).filter
      (fun l => !(isAnnotationLine l && commentContent l == PARAGRAPH_COMPLETE)) ≠ [] := by
    intro hcontra
    have := List.filter_eq_nil_iff.mp hcontra w hw
    exact this hkeep
  have hnonl : ∀ x ∈ (splitLines p).filter
      (fun l => !(isAnnotationLine l && commentContent l == PARAGRAPH_COMPLETE)),
      '\n' ∉ x := by
    intro x hx
    exact mem_splitLines_not_newline p x (List.mem_of_mem_filter hx)
  have hres : toggleParagraphCompletion p = joinLines ((splitLines p).filter
      (fun l => !(isAnnotationLine l && commentContent l == PARAGRAPH_COMPLETE))) := by
    rw [toggleParagraphCompletion]
    simp only [h, Bool.not_true, Bool.false_and, if_neg (by simp : ¬false = true)]
  have hsl : splitLines (toggleParagraphCompletion p) = (splitLines p).filter
      (fun l => !(isAnnotationLine l && commentContent l == PARAGRAPH_COMPLETE)) := by
    rw [hres, splitLines_joinLines _ hne hnonl]
  constructor
  · rw [paragraphHasComments, hsl, List.any_eq_true]
    exact ⟨w, List.mem_filter.mpr ⟨hw, hkeep⟩, by simp [hwann, hwne]⟩
  · rw [paragraphIsComplete, hsl, List.any_eq_false]
    intro x hx
    have hkx := List.of_mem_filter hx
    simp only [Bool.not_eq_true'] at hkx
    simp [hkx]

/-- C3: on a paragraph carrying at least one alternative/original/selected
annotation, any positive number of completion toggles leaves no
`PARAGRAPH_COMPLETE` annotation in the paragraph: an existing marker is
removed and a new one is never added. -/
theorem C3_completion_gating (p : List Char) (n : Nat)
    (h : paragraphHasComments p = true) :
    paragraphIsComplete (toggleParagraphCompletion^[n + 1] p) = false := by
  induction n generalizing p with
  | zero =>
    rw [Function.iterate_one]
    exact (toggle_of_hasComments p h).2
  | succ n ih =>
    rw [Function.iterate_succ_apply]
    exact ih (toggleParagraphCompletion p) (toggle_of_hasComments p h).1

/-- C3, witness. -/
theorem C3_completion_gating_witness :
    paragraphIsComplete
        (toggleParagraphCompletion^[2] "A line.\n%% an alternative %%".data) = false :=
  C3_completion_gating "A line.\n%% an alternative %%".data 1 (by decide)

/-! ### Claim C5: paragraph moves -/

/-- C5: with a non-heading target, move-paragraph removes the dragged
paragraph and re-inserts it at the drop index adjusted by subtracting one
when the source index was smaller than the target index, plus one more when
the position is `after`; in particular on a 2-paragraph document,
`moveParagraph ps 0 1 after` swaps the two paragraphs exactly. -/
theorem C5_move_paragraph_adjustment :
    (∀ (ps : List (List Char)) (d t : Nat) (pos : InsertPos) (hd : d < ps.length),
      moveParagraph ps d t pos false =
        (ps.take d ++ ps.drop (d + 1)).take
            (if pos = InsertPos.after then (if d < t then t - 1 else t) + 1
             else (if d < t then t - 1 else t)) ++
          ps.get ⟨d, hd⟩ ::
            (ps.take d ++ ps.drop (d + 1)).drop
              (if pos = InsertPos.after then (if d < t then t - 1 else t) + 1
               else (if d < t then t - 1 else t))) ∧
    (∀ p q : List Char, moveParagraph [p, q] 0 1 InsertPos.after false = [q, p]) := by
  constructor
  · intro ps d t pos hd
    rw [moveParagraph.eq_def, dif_pos hd]
    cases pos <;> simp
  · intro p q
    rfl

/-- C5, witness. -/
theorem C5_move_paragraph_adjustment_witness :
    moveParagraph ["First.".data, "Second.".data] 0 1 InsertPos.after false =
      ["Second.".data, "First.".data] :=
  (C5_move_paragraph_adjustment.1 ["First.".data, "Second.".data] 0 1 InsertPos.after
    (by decide)).trans (by decide)

/-! ### Claim C8: stale positional addresses -/

/-- C8, counterexample: the claim says every operation given a stale
positional address leaves the document completely unchanged.  A
cross-paragraph sentence move whose target line index is past the end of
the target paragraph still extracts the block from the source and inserts
it at line 0 of the target (the source's `insertLineIndex` keeps its
initial value 0), so the document changes. -/
theorem C8_counterexample :
    moveSentenceAcrossParagraphs ["a\nb".data, "c".data] 0 0 1 3 InsertPos.before ≠
      ["a\nb".data, "c".data] := by
  decide

theorem findSentenceLineIndex_none (lines : List (List Char)) (k : Nat)
    (h : countVisibleLines lines ≤ k) : findSentenceLineIndex lines k = none := by
  induction lines generalizing k with
  | nil => rfl
  | cons l rest ih =>
    rw [findSentenceLineIndex]
    by_cases hv : isVisibleLine l = true
    · have hc : countVisibleLines (l :: rest) = countVisibleLines rest + 1 := by
        simp [countVisibleLines, List.filter_cons, hv]
      rw [if_pos hv, if_neg (by omega : ¬k = 0), ih (k - 1) (by omega)]
      rfl
    · have hc : countVisibleLines (l :: rest) = countVisibleLines rest := by
        simp [countVisibleLines, List.filter_cons, hv]
      rw [if_neg hv, ih k (by omega)]
      rfl

theorem getSentenceAlternatives_stale (p : List Char) (k : Nat)
    (h : findSentenceLineIndex (splitLines p) k = none) :
    getSentenceAlternatives p k = ⟨[], some (-1), []⟩ := by
  simp only [getSentenceAlternatives]
  rw [h]

theorem removeSentenceBlock_stale (p : List Char) (k : Nat)
    (h : findSentenceLineIndex (splitLines p) k = none) :
    removeSentenceBlock p k = p := by
  simp only [removeSentenceBlock]
  rw [h]

theorem commitSentenceChoice_stale (p : List Char) (k : Nat)
    (h : findSentenceLineIndex (splitLines p) k = none) :
    commitSentenceChoice p k = p := by
  simp only [commitSentenceChoice]
  rw [h]

theorem extractSentenceBlock_stale (p : List Char) (k : Nat)
    (h : findSentenceLineIndex (splitLines p) k = none) :
    extractSentenceBlock p k = [] := by
  simp only [extractSentenceBlock]
  rw [h]

theorem selectSentenceAlternative_stale (p : List Char) (k : Nat) (a : Int)
    (h : findSentenceLineIndex (splitLines p) k = none) :
    selectSentenceAlternative p k a = p := by
  simp only [selectSentenceAlternative]
  rw [h]
  exact ite_self p

/-- C8, amended: an operation that locates its sentence line — remove-block,
commit-choice, select-alternative, or a within-paragraph move — given a
visible-line index past the end of the paragraph is a no-op, as is
toggle-completion given a paragraph index past the end of the document; but
a cross-paragraph move with a stale target line index is NOT a no-op (see
the counterexample: the block is inserted at the start of the target
paragraph). -/
theorem C8_stale_address_noop :
    (∀ (p : List Char) (k : Nat), countVisibleLines (splitLines p) ≤ k →
      removeSentenceBlock p k = p ∧ commitSentenceChoice p k = p ∧
        (∀ a : Int, selectSentenceAlternative p k a = p) ∧
        (∀ (t : Nat) (pos : InsertPos), moveSentenceBlockWithinParagraph p k t pos = p)) ∧
    (∀ (ps : List (List Char)) (i : Nat), ps.length ≤ i →
      toggleParagraphCompletionAt ps i = ps) := by
  constructor
  · intro p k hk
    have hfind := findSentenceLineIndex_none (splitLines p) k hk
    refine ⟨removeSentenceBlock_stale p k hfind, commitSentenceChoice_stale p k hfind,
      fun a => selectSentenceAlternative_stale p k a hfind, fun t pos => ?_⟩
    simp only [moveSentenceBlockWithinParagraph, extractSentenceBlock_stale p k hfind]
    rfl
  · intro ps i hi
    simp only [toggleParagraphCompletionAt]
    rw [if_neg (by omega)]

/-- C8, witness. -/
theorem C8_stale_address_noop_witness :
    removeSentenceBlock "a".data 5 = "a".data ∧
      toggleParagraphCompletionAt ["x".data] 3 = ["x".data] :=
  ⟨(C8_stale_address_noop.1 "a".data 5 (by decide)).1,
    C8_stale_address_noop.2 ["x".data] 3 (by decide)⟩

/-! ### C6: move operations preserve the multiset of visible lines -/

theorem filter_vis_takeWhile (l : List (List Char)) :
    (l.takeWhile (fun x => !isVisibleLine x)).filter isVisibleLine = [] := by
  rw [List.filter_eq_nil_iff]
  intro a ha
  have h := List.mem_takeWhile_imp ha
  simp only [Bool.not_eq_true'] at h
  simp [h]

theorem filter_vis_splitLines_joinLines (M : List (List Char))
    (h : ∀ l ∈ M, '\n' ∉ l) :
    (splitLines (joinLines M)).filter isVisibleLine = M.filter isVisibleLine := by
  cases M with
  | nil => decide
  | cons p ps => rw [splitLines_joinLines _ (by simp) h]

theorem getD_eq_getElem_of_lt (ps : List (List Char)) (i : Nat) (hi : i < ps.length) :
    ps.getD i [] = ps[i] := by
  rw [List.getD_eq_getElem?_getD, List.getElem?_eq_getElem hi]
  rfl

theorem extract_eq_of_drop (p : List Char) (f i : Nat) (line : List Char)
    (rest : List (List Char)) (hfind : findSentenceLineIndex (splitLines p) f = some i)
    (hd : (splitLines p).drop i = line :: rest) :
    extractSentenceBlock p f = line :: rest.takeWhile (fun l => !isVisibleLine l) := by
  simp only [extractSentenceBlock, hfind, hd]

theorem extract_no_newline (p : List Char) (f : Nat) :
    ∀ l ∈ extractSentenceBlock p f, '\n' ∉ l := by
  have hnl := mem_splitLines_not_newline p
  cases hfind : findSentenceLineIndex (splitLines p) f with
  | none =>
    simp only [extractSentenceBlock, hfind]
    simp
  | some i =>
    cases hd : (splitLines p).drop i with
    | nil =>
      simp only [extractSentenceBlock, hfind, hd]
      simp
    | cons line rest =>
      rw [extract_eq_of_drop p f i line rest hfind hd]
      intro l hl
      rcases List.mem_cons.mp hl with h | h
      · subst h
        have hmem : l ∈ (splitLines p).drop i := by
          rw [hd]; exact List.mem_cons_self _ _
        exact hnl l (List.mem_of_mem_drop hmem)
      · have h1 : l ∈ rest := by
          rw [← take_takeWhile_length (fun x => !isVisibleLine x) rest] at h
          exact List.mem_of_mem_take h
        have hmem : l ∈ (splitLines p).drop i := by
          rw [hd]; exact List.mem_cons_of_mem _ h1
        exact hnl l (List.mem_of_mem_drop hmem)

theorem remove_eq_of_drop (p : List Char) (f i : Nat) (line : List Char)
    (rest : List (List Char)) (hfind : findSentenceLineIndex (splitLines p) f = some i)
    (hd : (splitLines p).drop i = line :: rest) :
    removeSentenceBlock p f
      = joinLines ((splitLines p).take i
          ++ rest.dropWhile (fun l => !isVisibleLine l)) := by
  have hrest : (splitLines p).drop (i + 1) = rest := by
    rw [← List.drop_drop, hd]
    rfl
  simp only [removeSentenceBlock, hfind, hrest]
  rw [show i + (1 + (rest.takeWhile (fun l => !isVisibleLine l)).length)
      = (i + 1) + (rest.takeWhile (fun l => !isVisibleLine l)).length by omega,
    ← List.drop_drop, hrest, drop_takeWhile_length]

theorem remove_stale_drop (p : List Char) (f i : Nat)
    (hfind : findSentenceLineIndex (splitLines p) f = some i)
    (hd : (splitLines p).drop i = []) : removeSentenceBlock p f = p := by
  have hi : (splitLines p).length ≤ i := List.drop_eq_nil_iff.mp hd
  have hd1 : (splitLines p).drop (i + 1) = [] := by
    apply List.drop_eq_nil_iff.mpr
    omega
  simp only [removeSentenceBlock, hfind, hd1, List.takeWhile_nil, List.length_nil]
  rw [List.append_nil, List.take_of_length_le hi, joinLines_splitLines]

theorem remove_extract_visibles (p : List Char) (f : Nat) :
    (↑((splitLines (removeSentenceBlock p f)).filter isVisibleLine) : Multiset (List Char))
        + ↑((extractSentenceBlock p f).filter isVisibleLine)
      = ↑((splitLines p).filter isVisibleLine) := by
  cases hfind : findSentenceLineIndex (splitLines p) f with
  | none =>
    simp only [removeSentenceBlock, extractSentenceBlock, hfind]
    simp
  | some i =>
    cases hd : (splitLines p).drop i with
    | nil =>
      rw [remove_stale_drop p f i hfind hd]
      simp only [extractSentenceBlock, hfind, hd]
      simp
    | cons line rest =>
      rw [remove_eq_of_drop p f i line rest hfind hd,
        extract_eq_of_drop p f i line rest hfind hd]
      have hM : ∀ l ∈ (splitLines p).take i
          ++ rest.dropWhile (fun l => !isVisibleLine l), '\n' ∉ l := by
        intro l hl
        rcases List.mem_append.mp hl with h | h
        · exact mem_splitLines_not_newline p l (List.mem_of_mem_take h)
        · have h1 : l ∈ rest := (List.dropWhile_sublist _).subset h
          have h2 : l ∈ (splitLines p).drop i := by
            rw [hd]; exact List.mem_cons_of_mem _ h1
          exact mem_splitLines_not_newline p l (List.mem_of_mem_drop h2)
      rw [filter_vis_splitLines_joinLines _ hM]
      have hL : splitLines p
          = (splitLines p).take i
            ++ line :: (rest.takeWhile (fun l => !isVisibleLine l)
              ++ rest.dropWhile (fun l => !isVisibleLine l)) := by
        conv_lhs => rw [← List.take_append_drop i (splitLines p), hd,
          ← List.takeWhile_append_dropWhile (fun l => !isVisibleLine l) rest]
      conv_rhs => rw [hL]
      simp only [List.filter_append, List.filter_cons, filter_vis_takeWhile,
        List.nil_append]
      by_cases hvl : isVisibleLine line = true
      · rw [if_pos hvl, if_pos hvl, Multiset.coe_add, Multiset.coe_eq_coe,
          List.append_assoc]
        exact List.Perm.append_left _ (List.perm_append_singleton line _)
      · rw [if_neg hvl, if_neg hvl]
        simp

theorem insert_visibles (p : List Char) (t : Nat) (E : List (List Char))
    (pos : InsertPos) (hE : ∀ l ∈ E, '\n' ∉ l) :
    (↑((splitLines (insertSentenceBlock p t E pos)).filter isVisibleLine)
        : Multiset (List Char))
      = ↑((splitLines p).filter isVisibleLine) + ↑(E.filter isVisibleLine) := by
  obtain ⟨k, hk⟩ : ∃ k, insertSentenceBlock p t E pos
      = joinLines ((splitLines p).take k ++ E ++ (splitLines p).drop k) :=
    ⟨_, rfl⟩
  rw [hk]
  have hM : ∀ l ∈ (splitLines p).take k ++ E ++ (splitLines p).drop k, '\n' ∉ l := by
    intro l hl
    rcases List.mem_append.mp hl with h | h
    · rcases List.mem_append.mp h with h | h
      · exact mem_splitLines_not_newline p l (List.mem_of_mem_take h)
      · exact hE l h
    · exact mem_splitLines_not_newline p l (List.mem_of_mem_drop h)
  rw [filter_vis_splitLines_joinLines _ hM]
  conv_rhs => rw [← List.take_append_drop k (splitLines p)]
  rw [List.filter_append, List.filter_append, List.filter_append, Multiset.coe_add,
    Multiset.coe_eq_coe, List.append_assoc, List.append_assoc]
  exact List.Perm.append_left _ List.perm_append_comm

theorem moveWithin_visibles (p : List Char) (f t : Nat) (pos : InsertPos) :
    (↑((splitLines (moveSentenceBlockWithinParagraph p f t pos)).filter isVisibleLine)
        : Multiset (List Char))
      = ↑((splitLines p).filter isVisibleLine) := by
  simp only [moveSentenceBlockWithinParagraph]
  by_cases h : (extractSentenceBlock p f).length = 0
  · rw [if_pos h]
  · rw [if_neg h, insert_visibles _ _ _ _ (extract_no_newline p f),
      remove_extract_visibles]

theorem docVis_cons (p : List Char) (ps : List (List Char)) :
    docVisibleLines (p :: ps)
      = (splitLines p).filter isVisibleLine ++ docVisibleLines ps := rfl

theorem docVis_append (a b : List (List Char)) :
    docVisibleLines (a ++ b) = docVisibleLines a ++ docVisibleLines b := by
  simp [docVisibleLines]

theorem docVis_set (ps : List (List Char)) (i : Nat) (v : List Char)
    (hi : i < ps.length) :
    (↑(docVisibleLines (ps.set i v)) : Multiset (List Char))
        + ↑((splitLines (ps.getD i [])).filter isVisibleLine)
      = ↑(docVisibleLines ps) + ↑((splitLines v).filter isVisibleLine) := by
  have hps : ps = ps.take i ++ ps[i] :: ps.drop (i + 1) := by
    conv_lhs => rw [← List.take_append_drop i ps, List.drop_eq_getElem_cons hi]
  rw [getD_eq_getElem_of_lt ps i hi, List.set_eq_take_cons_drop v hi]
  conv_rhs => rw [hps]
  rw [docVis_append, docVis_cons, docVis_append, docVis_cons, Multiset.coe_add,
    Multiset.coe_add, Multiset.coe_eq_coe, List.perm_iff_count]
  intro a
  simp only [List.count_append]
  omega

theorem moveParagraph_docVis (ps : List (List Char)) (d t : Nat) (pos : InsertPos)
    (hb : Bool) (hdlt : d < ps.length) :
    (↑(docVisibleLines (moveParagraph ps d t pos hb)) : Multiset (List Char))
      = ↑(docVisibleLines ps) := by
  obtain ⟨k, hk⟩ : ∃ k, moveParagraph ps d t pos hb
      = (ps.take d ++ ps.drop (d + 1)).take k
          ++ ps[d] :: (ps.take d ++ ps.drop (d + 1)).drop k := by
    rw [moveParagraph.eq_def, dif_pos hdlt]
    exact ⟨_, rfl⟩
  have hps : ps = ps.take d ++ ps[d] :: ps.drop (d + 1) := by
    conv_lhs => rw [← List.take_append_drop d ps, List.drop_eq_getElem_cons hdlt]
  rw [hk]
  conv_rhs => rw [hps]
  rw [docVis_append, docVis_cons, docVis_append, docVis_cons,
    ← Multiset.coe_add, ← Multiset.coe_add, ← Multiset.coe_add, ← Multiset.coe_add]
  have hXA : docVisibleLines ((ps.take d ++ ps.drop (d + 1)).take k)
      ++ docVisibleLines ((ps.take d ++ ps.drop (d + 1)).drop k)
      = docVisibleLines (ps.take d) ++ docVisibleLines (ps.drop (d + 1)) := by
    rw [← docVis_append, List.take_append_drop, docVis_append]
  have hXAm : (↑(docVisibleLines ((ps.take d ++ ps.drop (d + 1)).take k))
        : Multiset (List Char))
      + ↑(docVisibleLines ((ps.take d ++ ps.drop (d + 1)).drop k))
      = ↑(docVisibleLines (ps.take d)) + ↑(docVisibleLines (ps.drop (d + 1))) := by
    rw [Multiset.coe_add, Multiset.coe_add, hXA]
  rw [add_left_comm, hXAm, add_left_comm]

theorem moveWithinAt_docVis (ps : List (List Char)) (i f t : Nat) (pos : InsertPos)
    (hi : i < ps.length) :
    (↑(docVisibleLines (moveSentenceWithinAt ps i f t pos)) : Multiset (List Char))
      = ↑(docVisibleLines ps) := by
  have h := docVis_set ps i
    (moveSentenceBlockWithinParagraph (ps.getD i []) f t pos) hi
  rw [moveWithin_visibles] at h
  simp only [moveSentenceWithinAt]
  exact add_right_cancel h

theorem moveAcross_docVis (ps : List (List Char))
    (dp ds tp ts : Nat) (pos : InsertPos)
    (hdp : dp < ps.length) (htp : tp < ps.length) (hne : dp ≠ tp) :
    (↑(docVisibleLines (moveSentenceAcrossParagraphs ps dp ds tp ts pos))
        : Multiset (List Char))
      = ↑(docVisibleLines ps) := by
  simp only [moveSentenceAcrossParagraphs]
  have eq1 := docVis_set ps dp (removeSentenceBlock (ps.getD dp []) ds) hdp
  have htp1 : tp < (ps.set dp (removeSentenceBlock (ps.getD dp []) ds)).length := by
    rw [List.length_set]
    exact htp
  have eq2 := docVis_set (ps.set dp (removeSentenceBlock (ps.getD dp []) ds)) tp
    (insertSentenceBlock (ps.getD tp []) ts
      (extractSentenceBlock (ps.getD dp []) ds) pos) htp1
  have hgd : (ps.set dp (removeSentenceBlock (ps.getD dp []) ds)).getD tp []
      = ps.getD tp [] := by
    rw [List.getD_eq_getElem?_getD (ps.set dp (removeSentenceBlock (ps.getD dp []) ds)),
      List.getElem?_set_ne hne, ← List.getD_eq_getElem?_getD]
  rw [hgd] at eq2
  have eq3 := insert_visibles (ps.getD tp []) ts
    (extractSentenceBlock (ps.getD dp []) ds) pos
    (extract_no_newline (ps.getD dp []) ds)
  have eq4 := remove_extract_visibles (ps.getD dp []) ds
  rw [Multiset.ext]
  intro a
  have c1 := congrArg (Multiset.count a) eq1
  have c2 := congrArg (Multiset.count a) eq2
  have c3 := congrArg (Multiset.count a) eq3
  have c4 := congrArg (Multiset.count a) eq4
  simp only [Multiset.count_add] at c1 c2 c3 c4 ⊢
  omega

theorem moveAfterHeading_docVis (ps : List (List Char)) (dp ds tp : Nat)
    (hdp : dp < ps.length) :
    (↑(docVisibleLines (moveSentenceAfterHeading ps dp ds tp)) : Multiset (List Char))
      = ↑(docVisibleLines ps) := by
  simp only [moveSentenceAfterHeading]
  rw [docVis_append, docVis_cons,
    filter_vis_splitLines_joinLines _ (extract_no_newline (ps.getD dp []) ds)]
  have eq1 := docVis_set ps dp (removeSentenceBlock (ps.getD dp []) ds) hdp
  have eq4 := remove_extract_visibles (ps.getD dp []) ds
  have hTD : (↑(docVisibleLines
          ((ps.set dp (removeSentenceBlock (ps.getD dp []) ds)).take (tp + 1)))
        : Multiset (List Char))
      + ↑(docVisibleLines
          ((ps.set dp (removeSentenceBlock (ps.getD dp []) ds)).drop (tp + 1)))
      = ↑(docVisibleLines (ps.set dp (removeSentenceBlock (ps.getD dp []) ds))) := by
    rw [Multiset.coe_add, ← docVis_append, List.take_append_drop]
  rw [Multiset.ext]
  intro a
  have c1 := congrArg (Multiset.count a) eq1
  have c4 := congrArg (Multiset.count a) eq4
  have cT := congrArg (Multiset.count a) hTD
  simp only [Multiset.count_add, Multiset.coe_count, List.count_append] at c1 c4 cT ⊢
  omega

/-- **C6.**  For every document and every Move-paragraph or Move-sentence-line
operation with valid addresses (paragraph indices within the document; the
cross-paragraph sentence branch of `insertElement` additionally requires the
dragged and drop paragraphs to differ, which is exactly the condition under
which the source takes that branch), the multiset of visible (non-blank,
non-annotation) sentence-lines over the whole document is identical before
and after the operation: no line is duplicated and no line is lost. -/
theorem C6_move_preserves_visible_lines (ps : List (List Char)) (pos : InsertPos) :
    (∀ d t : Nat, ∀ b : Bool, d < ps.length →
      (docVisibleLines (moveParagraph ps d t pos b)).Perm (docVisibleLines ps)) ∧
    (∀ i f t : Nat, i < ps.length →
      (docVisibleLines (moveSentenceWithinAt ps i f t pos)).Perm
        (docVisibleLines ps)) ∧
    (∀ dp ds tp ts : Nat, dp < ps.length → tp < ps.length → dp ≠ tp →
      (docVisibleLines (moveSentenceAcrossParagraphs ps dp ds tp ts pos)).Perm
        (docVisibleLines ps)) ∧
    (∀ dp ds tp : Nat, dp < ps.length →
      (docVisibleLines (moveSentenceAfterHeading ps dp ds tp)).Perm
        (docVisibleLines ps)) := by
  refine ⟨fun d t b hdlt => ?_, fun i f t hi => ?_,
    fun dp ds tp ts h1 h2 h3 => ?_, fun dp ds tp h1 => ?_⟩
  · exact Multiset.coe_eq_coe.mp (moveParagraph_docVis ps d t pos b hdlt)
  · exact Multiset.coe_eq_coe.mp (moveWithinAt_docVis ps i f t pos hi)
  · exact Multiset.coe_eq_coe.mp (moveAcross_docVis ps dp ds tp ts pos h1 h2 h3)
  · exact Multiset.coe_eq_coe.mp (moveAfterHeading_docVis ps dp ds tp h1)

/-- Witness for C6 at a concrete two-paragraph document: all four move
operations preserve the multiset of visible lines. -/
theorem C6_move_preserves_visible_lines_witness :
    (0 : Nat) < (["a\n%% x %%\nb".data, "c".data] : List (List Char)).length ∧
    (1 : Nat) < (["a\n%% x %%\nb".data, "c".data] : List (List Char)).length ∧
    (0 : Nat) ≠ 1 ∧
    (docVisibleLines (moveParagraph ["a\n%% x %%\nb".data, "c".data] 0 1
        InsertPos.before false)).Perm
      (docVisibleLines ["a\n%% x %%\nb".data, "c".data]) ∧
    (docVisibleLines (moveSentenceWithinAt ["a\n%% x %%\nb".data, "c".data] 0 0 1
        InsertPos.before)).Perm
      (docVisibleLines ["a\n%% x %%\nb".data, "c".data]) ∧
    (docVisibleLines (moveSentenceAcrossParagraphs ["a\n%% x %%\nb".data, "c".data]
        0 0 1 0 InsertPos.before)).Perm
      (docVisibleLines ["a\n%% x %%\nb".data, "c".data]) ∧
    (docVisibleLines (moveSentenceAfterHeading ["a\n%% x %%\nb".data, "c".data]
        0 0 1)).Perm
      (docVisibleLines ["a\n%% x %%\nb".data, "c".data]) :=
  ⟨by decide, by decide, by decide,
    (C6_move_preserves_visible_lines ["a\n%% x %%\nb".data, "c".data]
      InsertPos.before).1 0 1 false (by decide),
    (C6_move_preserves_visible_lines ["a\n%% x %%\nb".data, "c".data]
      InsertPos.before).2.1 0 0 1 (by decide),
    (C6_move_preserves_visible_lines ["a\n%% x %%\nb".data, "c".data]
      InsertPos.before).2.2.1 0 0 1 0 (by decide) (by decide) (by decide),
    (C6_move_preserves_visible_lines ["a\n%% x %%\nb".data, "c".data]
      InsertPos.before).2.2.2 0 0 1 (by decide)⟩

/-! ### C7: move operations preserve annotation attachment -/

theorem isVisibleLine_nil : isVisibleLine [] = false := rfl

theorem takeWhile_append_nil {α : Type} (q : α → Bool) (A B : List α)
    (hB : B.takeWhile q = []) : (A ++ B).takeWhile q = A.takeWhile q := by
  induction A with
  | nil => simpa using hB
  | cons a A ih =>
    simp only [List.cons_append, List.takeWhile_cons]
    cases q a
    · simp
    · simp [ih]

theorem dropWhile_append_nil {α : Type} (q : α → Bool) (A B : List α)
    (hB : B.takeWhile q = []) : (A ++ B).dropWhile q = A.dropWhile q ++ B := by
  induction A with
  | nil =>
    have h := List.takeWhile_append_dropWhile q B
    rw [hB] at h
    simpa using h
  | cons a A ih =>
    simp only [List.cons_append, List.dropWhile_cons]
    cases q a
    · simp
    · simp [ih]

theorem takeWhile_idem {α : Type} (q : α → Bool) (l : List α) :
    (l.takeWhile q).takeWhile q = l.takeWhile q := by
  induction l with
  | nil => rfl
  | cons a l ih =>
    rw [List.takeWhile_cons]
    cases hqa : q a
    · simp
    · simp [List.takeWhile_cons, hqa, ih]

theorem dropWhile_takeWhile_nil {α : Type} (q : α → Bool) (l : List α) :
    (l.takeWhile q).dropWhile q = [] := by
  induction l with
  | nil => rfl
  | cons a l ih =>
    rw [List.takeWhile_cons]
    cases hqa : q a
    · simp
    · simp [List.dropWhile_cons, hqa, ih]

theorem takeWhile_dropWhile_nil {α : Type} (q : α → Bool) (l : List α) :
    (l.dropWhile q).takeWhile q = [] := by
  cases hdw : l.dropWhile q with
  | nil => rfl
  | cons a s =>
    have hqa := dropWhile_eq_cons_head q l a s hdw
    rw [List.takeWhile_cons]
    simp [hqa]

theorem blocksOf_nil : blocksOf [] = [] := by
  simp [blocksOf]

theorem blocksOf_cons_visible (line : List Char) (rest : List (List Char))
    (h : isVisibleLine line = true) :
    blocksOf (line :: rest)
      = (line, rest.takeWhile (fun x => !isVisibleLine x))
          :: blocksOf (rest.dropWhile (fun x => !isVisibleLine x)) := by
  simp only [blocksOf]
  rw [if_pos h]

theorem blocksOf_cons_not (line : List Char) (rest : List (List Char))
    (h : ¬isVisibleLine line = true) :
    blocksOf (line :: rest) = blocksOf rest := by
  simp only [blocksOf]
  rw [if_neg h]

theorem blocksOf_append (X Y : List (List Char))
    (hY : Y.takeWhile (fun x => !isVisibleLine x) = []) :
    blocksOf (X ++ Y) = blocksOf X ++ blocksOf Y := by
  induction X using blocksOf.induct with
  | case1 => simp [blocksOf_nil]
  | case2 line rest hv ih =>
    rw [List.cons_append, blocksOf_cons_visible _ _ hv, blocksOf_cons_visible _ _ hv,
      takeWhile_append_nil _ _ _ hY, dropWhile_append_nil _ _ _ hY, ih,
      List.cons_append]
  | case3 line rest hv ih =>
    rw [List.cons_append, blocksOf_cons_not _ _ hv, blocksOf_cons_not _ _ hv, ih]

theorem anchoredLines_nil : anchoredLines [] = [] := by
  simp [anchoredLines, blocksOf_nil]

theorem anchoredLines_append (X Y : List (List Char))
    (hY : Y.takeWhile (fun x => !isVisibleLine x) = []) :
    anchoredLines (X ++ Y) = anchoredLines X ++ anchoredLines Y := by
  simp [anchoredLines, blocksOf_append X Y hY, List.flatMap_append]

theorem anchoredLines_cons_visible (line : List Char) (rest : List (List Char))
    (h : isVisibleLine line = true) :
    anchoredLines (line :: rest)
      = ((rest.takeWhile (fun x => !isVisibleLine x)).filter isAnnotationLine).map
          (fun a => (line, a))
        ++ anchoredLines (rest.dropWhile (fun x => !isVisibleLine x)) := by
  simp [anchoredLines, blocksOf_cons_visible _ _ h]

theorem anchored_splitLines_joinLines (M : List (List Char))
    (h : ∀ l ∈ M, '\n' ∉ l) :
    anchoredLines (splitLines (joinLines M)) = anchoredLines M := by
  cases M with
  | nil =>
    show anchoredLines (splitLines []) = anchoredLines []
    rw [splitLines_nil]
    simp [anchoredLines, blocksOf, isVisibleLine_nil]
  | cons p ps => rw [splitLines_joinLines _ (by simp) h]

theorem findSentenceLineIndex_some (lines : List (List Char)) (k i : Nat)
    (h : findSentenceLineIndex lines k = some i) :
    i < lines.length ∧ isVisibleLine (lines.getD i []) = true := by
  induction lines generalizing k i with
  | nil => simp [findSentenceLineIndex] at h
  | cons line rest ih =>
    simp only [findSentenceLineIndex] at h
    by_cases hv : isVisibleLine line = true
    · rw [if_pos hv] at h
      by_cases hk : k = 0
      · rw [if_pos hk] at h
        obtain rfl : (0 : Nat) = i := by simpa using h
        refine ⟨by simp, ?_⟩
        rw [List.getD_cons_zero]
        exact hv
      · rw [if_neg hk] at h
        cases hfr : findSentenceLineIndex rest (k - 1) with
        | none => rw [hfr] at h; simp at h
        | some j =>
          rw [hfr] at h
          simp only [Option.map_some'] at h
          obtain rfl : j + 1 = i := by simpa using h
          obtain ⟨h1, h2⟩ := ih _ _ hfr
          refine ⟨by simp only [List.length_cons]; omega, ?_⟩
          rw [List.getD_cons_succ]
          exact h2
    · rw [if_neg hv] at h
      cases hfr : findSentenceLineIndex rest k with
      | none => rw [hfr] at h; simp at h
      | some j =>
        rw [hfr] at h
        simp only [Option.map_some'] at h
        obtain rfl : j + 1 = i := by simpa using h
        obtain ⟨h1, h2⟩ := ih _ _ hfr
        refine ⟨by simp only [List.length_cons]; omega, ?_⟩
        rw [List.getD_cons_succ]
        exact h2

theorem extract_ne_nil (p : List Char) (f i : Nat)
    (hf : findSentenceLineIndex (splitLines p) f = some i) :
    extractSentenceBlock p f ≠ [] := by
  obtain ⟨hilen, _⟩ := findSentenceLineIndex_some _ _ _ hf
  rw [extract_eq_of_drop p f i _ _ hf (List.drop_eq_getElem_cons hilen)]
  simp

theorem extract_takeWhile_nil (p : List Char) (f : Nat)
    (hf : findSentenceLineIndex (splitLines p) f ≠ none) :
    (extractSentenceBlock p f).takeWhile (fun x => !isVisibleLine x) = [] := by
  cases hfi : findSentenceLineIndex (splitLines p) f with
  | none => exact absurd hfi hf
  | some i =>
    obtain ⟨hilen, hivis⟩ := findSentenceLineIndex_some _ _ _ hfi
    rw [getD_eq_getElem_of_lt _ _ hilen] at hivis
    rw [extract_eq_of_drop p f i _ _ hfi (List.drop_eq_getElem_cons hilen),
      List.takeWhile_cons]
    simp [hivis]

theorem remove_extract_anchored (p : List Char) (f i : Nat)
    (hf : findSentenceLineIndex (splitLines p) f = some i) :
    (↑(anchoredLines (splitLines (removeSentenceBlock p f)))
        : Multiset (List Char × List Char))
        + ↑(anchoredLines (extractSentenceBlock p f))
      = ↑(anchoredLines (splitLines p)) := by
  obtain ⟨hilen, hivis⟩ := findSentenceLineIndex_some _ _ _ hf
  rw [getD_eq_getElem_of_lt _ _ hilen] at hivis
  have hd := List.drop_eq_getElem_cons hilen
  rw [remove_eq_of_drop p f i _ _ hf hd, extract_eq_of_drop p f i _ _ hf hd]
  have hM : ∀ l ∈ (splitLines p).take i
      ++ ((splitLines p).drop (i + 1)).dropWhile (fun x => !isVisibleLine x),
      '\n' ∉ l := by
    intro l hl
    rcases List.mem_append.mp hl with h | h
    · exact mem_splitLines_not_newline p l (List.mem_of_mem_take h)
    · have h1 : l ∈ (splitLines p).drop (i + 1) := (List.dropWhile_sublist _).subset h
      exact mem_splitLines_not_newline p l (List.mem_of_mem_drop h1)
  rw [anchored_splitLines_joinLines _ hM,
    anchoredLines_append _ _ (takeWhile_dropWhile_nil _ _),
    anchoredLines_cons_visible _ _ hivis, takeWhile_idem, dropWhile_takeWhile_nil,
    anchoredLines_nil, List.append_nil]
  have hY2 : ((splitLines p)[i] :: (splitLines p).drop (i + 1)).takeWhile
      (fun x => !isVisibleLine x) = [] := by
    rw [List.takeWhile_cons]
    simp [hivis]
  have hPS : anchoredLines (splitLines p)
      = anchoredLines ((splitLines p).take i)
        ++ (((((splitLines p).drop (i + 1)).takeWhile
              (fun x => !isVisibleLine x)).filter isAnnotationLine).map
            (fun a => ((splitLines p)[i], a))
          ++ anchoredLines (((splitLines p).drop (i + 1)).dropWhile
              (fun x => !isVisibleLine x))) := by
    conv_lhs => rw [← List.take_append_drop i (splitLines p), hd]
    rw [anchoredLines_append _ _ hY2, anchoredLines_cons_visible _ _ hivis]
  rw [hPS, Multiset.coe_add, Multiset.coe_eq_coe, List.append_assoc]
  exact List.Perm.append_left _ List.perm_append_comm

theorem insert_anchored (p : List Char) (t j : Nat) (E : List (List Char))
    (pos : InsertPos)
    (ht : findSentenceLineIndex (splitLines p) t = some j)
    (hE : ∀ l ∈ E, '\n' ∉ l)
    (hEtw : E.takeWhile (fun x => !isVisibleLine x) = []) :
    (↑(anchoredLines (splitLines (insertSentenceBlock p t E pos)))
        : Multiset (List Char × List Char))
      = ↑(anchoredLines (splitLines p)) + ↑(anchoredLines E) := by
  obtain ⟨hjlen, hjvis⟩ := findSentenceLineIndex_some _ _ _ ht
  rw [getD_eq_getElem_of_lt _ _ hjlen] at hjvis
  obtain ⟨k, hk, hdk⟩ : ∃ k, insertSentenceBlock p t E pos
      = joinLines ((splitLines p).take k ++ E ++ (splitLines p).drop k)
      ∧ ((splitLines p).drop k).takeWhile (fun x => !isVisibleLine x) = [] := by
    cases pos with
    | before =>
      refine ⟨j, ?_, ?_⟩
      · simp only [insertSentenceBlock, ht]
      · rw [List.drop_eq_getElem_cons hjlen, List.takeWhile_cons]
        simp [hjvis]
    | after =>
      refine ⟨j + 1 + (((splitLines p).drop (j + 1)).takeWhile
          (fun x => !isVisibleLine x)).length, ?_, ?_⟩
      · simp only [insertSentenceBlock, ht]
      · rw [← List.drop_drop, drop_takeWhile_length, takeWhile_dropWhile_nil]
  rw [hk]
  have hM : ∀ l ∈ (splitLines p).take k ++ E ++ (splitLines p).drop k, '\n' ∉ l := by
    intro l hl
    rcases List.mem_append.mp hl with h | h
    · rcases List.mem_append.mp h with h | h
      · exact mem_splitLines_not_newline p l (List.mem_of_mem_take h)
      · exact hE l h
    · exact mem_splitLines_not_newline p l (List.mem_of_mem_drop h)
  have hY1 : (E ++ (splitLines p).drop k).takeWhile (fun x => !isVisibleLine x) = [] := by
    rw [takeWhile_append_nil _ _ _ hdk, hEtw]
  rw [anchored_splitLines_joinLines _ hM, List.append_assoc,
    anchoredLines_append _ _ hY1, anchoredLines_append _ _ hdk]
  conv_rhs => rw [← List.take_append_drop k (splitLines p)]
  rw [anchoredLines_append _ _ hdk, Multiset.coe_add, Multiset.coe_eq_coe,
    List.append_assoc]
  exact List.Perm.append_left _ List.perm_append_comm

theorem moveWithin_anchored (p : List Char) (f t : Nat) (pos : InsertPos)
    (hf : findSentenceLineIndex (splitLines p) f ≠ none)
    (ht : findSentenceLineIndex (splitLines (removeSentenceBlock p f))
        (if f < t then t - 1 else t) ≠ none) :
    (↑(anchoredLines (splitLines (moveSentenceBlockWithinParagraph p f t pos)))
        : Multiset (List Char × List Char))
      = ↑(anchoredLines (splitLines p)) := by
  obtain ⟨i, hfi⟩ : ∃ i, findSentenceLineIndex (splitLines p) f = some i := by
    cases hx : findSentenceLineIndex (splitLines p) f with
    | none => exact absurd hx hf
    | some i => exact ⟨i, rfl⟩
  obtain ⟨j, htj⟩ : ∃ j, findSentenceLineIndex (splitLines (removeSentenceBlock p f))
      (if f < t then t - 1 else t) = some j := by
    cases hx : findSentenceLineIndex (splitLines (removeSentenceBlock p f))
        (if f < t then t - 1 else t) with
    | none => exact absurd hx ht
    | some j => exact ⟨j, rfl⟩
  simp only [moveSentenceBlockWithinParagraph]
  rw [if_neg (by rw [List.length_eq_zero]; exact extract_ne_nil p f i hfi)]
  rw [insert_anchored _ _ j _ pos htj (extract_no_newline p f)
      (extract_takeWhile_nil p f hf),
    remove_extract_anchored p f i hfi]

theorem docAnch_cons (p : List Char) (ps : List (List Char)) :
    docAnchored (p :: ps) = anchoredLines (splitLines p) ++ docAnchored ps := rfl

theorem docAnch_append (a b : List (List Char)) :
    docAnchored (a ++ b) = docAnchored a ++ docAnchored b := by
  simp [docAnchored]

theorem docAnch_set (ps : List (List Char)) (i : Nat) (v : List Char)
    (hi : i < ps.length) :
    (↑(docAnchored (ps.set i v)) : Multiset (List Char × List Char))
        + ↑(anchoredLines (splitLines (ps.getD i [])))
      = ↑(docAnchored ps) + ↑(anchoredLines (splitLines v)) := by
  have hps : ps = ps.take i ++ ps[i] :: ps.drop (i + 1) := by
    conv_lhs => rw [← List.take_append_drop i ps, List.drop_eq_getElem_cons hi]
  rw [getD_eq_getElem_of_lt ps i hi, List.set_eq_take_cons_drop v hi]
  conv_rhs => rw [hps]
  rw [docAnch_append, docAnch_cons, docAnch_append, docAnch_cons, Multiset.coe_add,
    Multiset.coe_add, Multiset.coe_eq_coe, List.perm_iff_count]
  intro a
  simp only [List.count_append]
  omega

theorem moveParagraph_docAnch (ps : List (List Char)) (d t : Nat) (pos : InsertPos)
    (hb : Bool) (hdlt : d < ps.length) :
    (↑(docAnchored (moveParagraph ps d t pos hb)) : Multiset (List Char × List Char))
      = ↑(docAnchored ps) := by
  obtain ⟨k, hk⟩ : ∃ k, moveParagraph ps d t pos hb
      = (ps.take d ++ ps.drop (d + 1)).take k
          ++ ps[d] :: (ps.take d ++ ps.drop (d + 1)).drop k := by
    rw [moveParagraph.eq_def, dif_pos hdlt]
    exact ⟨_, rfl⟩
  have hps : ps = ps.take d ++ ps[d] :: ps.drop (d + 1) := by
    conv_lhs => rw [← List.take_append_drop d ps, List.drop_eq_getElem_cons hdlt]
  rw [hk]
  conv_rhs => rw [hps]
  rw [docAnch_append, docAnch_cons, docAnch_append, docAnch_cons,
    ← Multiset.coe_add, ← Multiset.coe_add, ← Multiset.coe_add, ← Multiset.coe_add]
  have hXA : docAnchored ((ps.take d ++ ps.drop (d + 1)).take k)
      ++ docAnchored ((ps.take d ++ ps.drop (d + 1)).drop k)
      = docAnchored (ps.take d) ++ docAnchored (ps.drop (d + 1)) := by
    rw [← docAnch_append, List.take_append_drop, docAnch_append]
  have hXAm : (↑(docAnchored ((ps.take d ++ ps.drop (d + 1)).take k))
        : Multiset (List Char × List Char))
      + ↑(docAnchored ((ps.take d ++ ps.drop (d + 1)).drop k))
      = ↑(docAnchored (ps.take d)) + ↑(docAnchored (ps.drop (d + 1))) := by
    rw [Multiset.coe_add, Multiset.coe_add, hXA]
  rw [add_left_comm, hXAm, add_left_comm]

theorem moveWithinAt_docAnch (ps : List (List Char)) (i f t : Nat) (pos : InsertPos)
    (hi : i < ps.length)
    (hf : findSentenceLineIndex (splitLines (ps.getD i [])) f ≠ none)
    (ht : findSentenceLineIndex (splitLines (removeSentenceBlock (ps.getD i []) f))
        (if f < t then t - 1 else t) ≠ none) :
    (↑(docAnchored (moveSentenceWithinAt ps i f t pos))
        : Multiset (List Char × List Char))
      = ↑(docAnchored ps) := by
  have h := docAnch_set ps i
    (moveSentenceBlockWithinParagraph (ps.getD i []) f t pos) hi
  rw [moveWithin_anchored _ _ _ _ hf ht] at h
  simp only [moveSentenceWithinAt]
  exact add_right_cancel h

theorem moveAcross_docAnch (ps : List (List Char))
    (dp ds tp ts : Nat) (pos : InsertPos)
    (hdp : dp < ps.length) (htp : tp < ps.length) (hne : dp ≠ tp)
    (hfs : findSentenceLineIndex (splitLines (ps.getD dp [])) ds ≠ none)
    (hft : findSentenceLineIndex (splitLines (ps.getD tp [])) ts ≠ none) :
    (↑(docAnchored (moveSentenceAcrossParagraphs ps dp ds tp ts pos))
        : Multiset (List Char × List Char))
      = ↑(docAnchored ps) := by
  obtain ⟨i, hfi⟩ : ∃ i, findSentenceLineIndex (splitLines (ps.getD dp [])) ds
      = some i := by
    cases hx : findSentenceLineIndex (splitLines (ps.getD dp [])) ds with
    | none => exact absurd hx hfs
    | some i => exact ⟨i, rfl⟩
  obtain ⟨j, htj⟩ : ∃ j, findSentenceLineIndex (splitLines (ps.getD tp [])) ts
      = some j := by
    cases hx : findSentenceLineIndex (splitLines (ps.getD tp [])) ts with
    | none => exact absurd hx hft
    | some j => exact ⟨j, rfl⟩
  simp only [moveSentenceAcrossParagraphs]
  have eq1 := docAnch_set ps dp (removeSentenceBlock (ps.getD dp []) ds) hdp
  have htp1 : tp < (ps.set dp (removeSentenceBlock (ps.getD dp []) ds)).length := by
    rw [List.length_set]
    exact htp
  have eq2 := docAnch_set (ps.set dp (removeSentenceBlock (ps.getD dp []) ds)) tp
    (insertSentenceBlock (ps.getD tp []) ts
      (extractSentenceBlock (ps.getD dp []) ds) pos) htp1
  have hgd : (ps.set dp (removeSentenceBlock (ps.getD dp []) ds)).getD tp []
      = ps.getD tp [] := by
    rw [List.getD_eq_getElem?_getD (ps.set dp (removeSentenceBlock (ps.getD dp []) ds)),
      List.getElem?_set_ne hne, ← List.getD_eq_getElem?_getD]
  rw [hgd] at eq2
  have eq3 := insert_anchored (ps.getD tp []) ts j
    (extractSentenceBlock (ps.getD dp []) ds) pos htj
    (extract_no_newline (ps.getD dp []) ds)
    (extract_takeWhile_nil (ps.getD dp []) ds hfs)
  have eq4 := remove_extract_anchored (ps.getD dp []) ds i hfi
  rw [Multiset.ext]
  intro a
  have c1 := congrArg (Multiset.count a) eq1
  have c2 := congrArg (Multiset.count a) eq2
  have c3 := congrArg (Multiset.count a) eq3
  have c4 := congrArg (Multiset.count a) eq4
  simp only [Multiset.count_add] at c1 c2 c3 c4 ⊢
  omega

theorem moveAfterHeading_docAnch (ps : List (List Char)) (dp ds tp : Nat)
    (hdp : dp < ps.length)
    (hfs : findSentenceLineIndex (splitLines (ps.getD dp [])) ds ≠ none) :
    (↑(docAnchored (moveSentenceAfterHeading ps dp ds tp))
        : Multiset (List Char × List Char))
      = ↑(docAnchored ps) := by
  obtain ⟨i, hfi⟩ : ∃ i, findSentenceLineIndex (splitLines (ps.getD dp [])) ds
      = some i := by
    cases hx : findSentenceLineIndex (splitLines (ps.getD dp [])) ds with
    | none => exact absurd hx hfs
    | some i => exact ⟨i, rfl⟩
  simp only [moveSentenceAfterHeading]
  rw [docAnch_append, docAnch_cons,
    anchored_splitLines_joinLines _ (extract_no_newline (ps.getD dp []) ds)]
  have eq1 := docAnch_set ps dp (removeSentenceBlock (ps.getD dp []) ds) hdp
  have eq4 := remove_extract_anchored (ps.getD dp []) ds i hfi
  have hTD : (↑(docAnchored
          ((ps.set dp (removeSentenceBlock (ps.getD dp []) ds)).take (tp + 1)))
        : Multiset (List Char × List Char))
      + ↑(docAnchored
          ((ps.set dp (removeSentenceBlock (ps.getD dp []) ds)).drop (tp + 1)))
      = ↑(docAnchored (ps.set dp (removeSentenceBlock (ps.getD dp []) ds))) := by
    rw [Multiset.coe_add, ← docAnch_append, List.take_append_drop]
  rw [Multiset.ext]
  intro a
  have c1 := congrArg (Multiset.count a) eq1
  have c4 := congrArg (Multiset.count a) eq4
  have cT := congrArg (Multiset.count a) hTD
  simp only [Multiset.count_add, Multiset.coe_count, List.count_append] at c1 c4 cT ⊢
  omega

/-- **C7.**  After any Move-paragraph or Move-sentence-line operation with
valid addresses (paragraph indices in range, the sentence-line lookups
performed by the operation all succeeding, and — for the cross-paragraph
branch of `insertElement` — distinct source and target paragraphs, exactly
as the source requires), every `%%`-delimited annotation line is still
attached, in the contiguous block following it, to the same visible
sentence-line it was attached to before the move, identified by the line's
text content: the multiset of (visible line, annotation line) attachment
pairs of the whole document (`docAnchored`) is unchanged. -/
theorem C7_move_preserves_attachment (ps : List (List Char)) (pos : InsertPos) :
    (∀ d t : Nat, ∀ b : Bool, d < ps.length →
      (docAnchored (moveParagraph ps d t pos b)).Perm (docAnchored ps)) ∧
    (∀ i f t : Nat, i < ps.length →
      findSentenceLineIndex (splitLines (ps.getD i [])) f ≠ none →
      findSentenceLineIndex (splitLines (removeSentenceBlock (ps.getD i []) f))
        (if f < t then t - 1 else t) ≠ none →
      (docAnchored (moveSentenceWithinAt ps i f t pos)).Perm (docAnchored ps)) ∧
    (∀ dp ds tp ts : Nat, dp < ps.length → tp < ps.length → dp ≠ tp →
      findSentenceLineIndex (splitLines (ps.getD dp [])) ds ≠ none →
      findSentenceLineIndex (splitLines (ps.getD tp [])) ts ≠ none →
      (docAnchored (moveSentenceAcrossParagraphs ps dp ds tp ts pos)).Perm
        (docAnchored ps)) ∧
    (∀ dp ds tp : Nat, dp < ps.length →
      findSentenceLineIndex (splitLines (ps.getD dp [])) ds ≠ none →
      (docAnchored (moveSentenceAfterHeading ps dp ds tp)).Perm
        (docAnchored ps)) := by
  refine ⟨fun d t b hdlt => ?_, fun i f t hi hf ht => ?_,
    fun dp ds tp ts h1 h2 h3 h4 h5 => ?_, fun dp ds tp h1 h2 => ?_⟩
  · exact Multiset.coe_eq_coe.mp (moveParagraph_docAnch ps d t pos b hdlt)
  · exact Multiset.coe_eq_coe.mp (moveWithinAt_docAnch ps i f t pos hi hf ht)
  · exact Multiset.coe_eq_coe.mp (moveAcross_docAnch ps dp ds tp ts pos h1 h2 h3 h4 h5)
  · exact Multiset.coe_eq_coe.mp (moveAfterHeading_docAnch ps dp ds tp h1 h2)

/-- Witness for C7 at a concrete two-paragraph document with an annotation
attached to the first sentence. -/
theorem C7_move_preserves_attachment_witness :
    (0 : Nat) < (["a\n%% x %%\nb".data, "c\nd".data] : List (List Char)).length ∧
    (1 : Nat) < (["a\n%% x %%\nb".data, "c\nd".data] : List (List Char)).length ∧
    (0 : Nat) ≠ 1 ∧
    findSentenceLineIndex
      (splitLines ((["a\n%% x %%\nb".data, "c\nd".data]
        : List (List Char)).getD 0 [])) 0 ≠ none ∧
    findSentenceLineIndex
      (splitLines (removeSentenceBlock ((["a\n%% x %%\nb".data, "c\nd".data]
        : List (List Char)).getD 0 []) 0)) (if 0 < 1 then 1 - 1 else 1) ≠ none ∧
    findSentenceLineIndex
      (splitLines ((["a\n%% x %%\nb".data, "c\nd".data]
        : List (List Char)).getD 1 [])) 0 ≠ none ∧
    (docAnchored (moveParagraph ["a\n%% x %%\nb".data, "c\nd".data] 0 1
        InsertPos.before false)).Perm
      (docAnchored ["a\n%% x %%\nb".data, "c\nd".data]) ∧
    (docAnchored (moveSentenceWithinAt ["a\n%% x %%\nb".data, "c\nd".data] 0 0 1
        InsertPos.before)).Perm
      (docAnchored ["a\n%% x %%\nb".data, "c\nd".data]) ∧
    (docAnchored (moveSentenceAcrossParagraphs ["a\n%% x %%\nb".data, "c\nd".data]
        0 0 1 0 InsertPos.before)).Perm
      (docAnchored ["a\n%% x %%\nb".data, "c\nd".data]) ∧
    (docAnchored (moveSentenceAfterHeading ["a\n%% x %%\nb".data, "c\nd".data]
        0 0 1)).Perm
      (docAnchored ["a\n%% x %%\nb".data, "c\nd".data]) :=
  ⟨by decide, by decide, by decide, by decide, by decide, by decide,
    (C7_move_preserves_attachment ["a\n%% x %%\nb".data, "c\nd".data]
      InsertPos.before).1 0 1 false (by decide),
    (C7_move_preserves_attachment ["a\n%% x %%\nb".data, "c\nd".data]
      InsertPos.before).2.1 0 0 1 (by decide) (by decide) (by decide),
    (C7_move_preserves_attachment ["a\n%% x %%\nb".data, "c\nd".data]
      InsertPos.before).2.2.1 0 0 1 0 (by decide) (by decide) (by decide)
      (by decide) (by decide),
    (C7_move_preserves_attachment ["a\n%% x %%\nb".data, "c\nd".data]
      InsertPos.before).2.2.2 0 0 1 (by decide) (by decide)⟩

/-! ### C4: helpers — list surgery, trimming algebra, digit characters -/

theorem getD_append_self {α : Type} (P X : List α) (d : α) :
    (P ++ X).getD P.length d = X.getD 0 d := by
  induction P with
  | nil => rfl
  | cons a P ih =>
    rw [List.cons_append, List.length_cons, List.getD_cons_succ]
    exact ih

theorem getD_append_add {α : Type} (P X : List α) (d : α) (n : Nat) :
    (P ++ X).getD (P.length + n) d = X.getD n d := by
  induction P with
  | nil => simp
  | cons a P ih =>
    rw [List.cons_append, List.length_cons, Nat.add_right_comm P.length 1 n,
      List.getD_cons_succ]
    exact ih

theorem set_append_self {α : Type} (P X : List α) (y : α) :
    (P ++ X).set P.length y = P ++ X.set 0 y := by
  induction P with
  | nil => rfl
  | cons a P ih =>
    rw [List.cons_append, List.length_cons]
    show a :: (P ++ X).set P.length y = (a :: P) ++ X.set 0 y
    rw [ih, List.cons_append]

theorem takeWhile_of_all {α : Type} (q : α → Bool) (l : List α)
    (h : ∀ x ∈ l, q x = true) : l.takeWhile q = l := by
  induction l with
  | nil => rfl
  | cons a l ih =>
    rw [List.takeWhile_cons, if_pos (h a (List.mem_cons_self _ _)),
      ih (fun x hx => h x (List.mem_cons_of_mem _ hx))]

theorem dropWhile_append_all {α : Type} (q : α → Bool) (A B : List α)
    (hA : ∀ x ∈ A, q x = true) : (A ++ B).dropWhile q = B.dropWhile q := by
  induction A with
  | nil => rfl
  | cons a A ih =>
    rw [List.cons_append, List.dropWhile_cons, if_pos (hA a (List.mem_cons_self _ _)),
      ih (fun x hx => hA x (List.mem_cons_of_mem _ hx))]

theorem takeWhile_append_all {α : Type} (q : α → Bool) (A B : List α)
    (hA : ∀ x ∈ A, q x = true) (hB : B.takeWhile q = []) :
    (A ++ B).takeWhile q = A := by
  rw [takeWhile_append_nil _ _ _ hB, takeWhile_of_all _ _ hA]

theorem dropWhile_of_takeWhile_nil {α : Type} (q : α → Bool) (l : List α)
    (h : l.takeWhile q = []) : l.dropWhile q = l := by
  have h2 := List.takeWhile_append_dropWhile q l
  rw [h] at h2
  simpa using h2

theorem takeWhile_nil_of_dropWhile_self {α : Type} (q : α → Bool) (l : List α)
    (h : l.dropWhile q = l) : l.takeWhile q = [] := by
  cases l with
  | nil => rfl
  | cons a r =>
    rw [List.takeWhile_cons]
    by_cases hq : q a = true
    · exfalso
      rw [List.dropWhile_cons, if_pos hq] at h
      have hle : (r.dropWhile q).length ≤ r.length := (List.dropWhile_sublist _).length_le
      have hlen : (r.dropWhile q).length = (a :: r).length := by rw [h]
      simp only [List.length_cons] at hlen
      omega
    · rw [if_neg hq]

theorem trimRight_prefix (l : List Char) : trimRight l <+: l := by
  have h0 : l.reverse.dropWhile Char.isWhitespace <:+ l.reverse :=
    List.dropWhile_suffix Char.isWhitespace
  have h := List.reverse_prefix.mpr h0
  rw [List.reverse_reverse] at h
  exact h

theorem trimLeft_of_takeWhile_nil (l : List Char)
    (h : l.takeWhile Char.isWhitespace = []) : trimLeft l = l :=
  dropWhile_of_takeWhile_nil _ _ h

theorem takeWhile_ws_of_prefix (X Y : List Char) (hp : X <+: Y)
    (hY : Y.takeWhile Char.isWhitespace = []) :
    X.takeWhile Char.isWhitespace = [] := by
  cases X with
  | nil => rfl
  | cons c r =>
    obtain ⟨s, hs⟩ := hp
    rw [List.takeWhile_cons]
    by_cases hc : c.isWhitespace = true
    · exfalso
      rw [← hs, List.cons_append, List.takeWhile_cons, if_pos hc] at hY
      simp at hY
    · rw [if_neg hc]

theorem trimLeft_trim (l : List Char) : trimLeft (trim l) = trim l := by
  apply trimLeft_of_takeWhile_nil
  exact takeWhile_ws_of_prefix _ _ ( trimRight_prefix (trimLeft l))
    (takeWhile_dropWhile_nil _ _)

theorem trimRight_idem (l : List Char) : trimRight (trimRight l) = trimRight l := by
  simp only [trimRight, List.reverse_reverse]
  rw [dropWhile_of_takeWhile_nil _ _ (takeWhile_dropWhile_nil _ _)]

theorem trimRight_trim (l : List Char) : trimRight (trim l) = trim l :=
  trimRight_idem (trimLeft l)

theorem trim_trim (l : List Char) : trim (trim l) = trim l := by
  show trimRight (trimLeft (trim l)) = trim l
  rw [trimLeft_trim, trimRight_trim]

theorem takeWhile_ws_trim (l : List Char) :
    (trim l).takeWhile Char.isWhitespace = [] :=
  takeWhile_nil_of_dropWhile_self _ _ (trimLeft_trim l)

theorem trim_ws_append (lead X : List Char)
    (hl : ∀ c ∈ lead, c.isWhitespace = true) : trim (lead ++ X) = trim X := by
  show trimRight (trimLeft (lead ++ X)) = trimRight (trimLeft X)
  rw [show trimLeft (lead ++ X) = trimLeft X from dropWhile_append_all _ _ _ hl]

theorem trim_of_ends (l : List Char)
    (h1 : l.takeWhile Char.isWhitespace = [])
    (h2 : l.reverse.takeWhile Char.isWhitespace = []) : trim l = l := by
  show trimRight (trimLeft l) = l
  rw [trimLeft_of_takeWhile_nil _ h1]
  show (l.reverse.dropWhile Char.isWhitespace).reverse = l
  rw [dropWhile_of_takeWhile_nil _ _ h2, List.reverse_reverse]

theorem takeWhile_ws_percent_head (r : List Char) :
    ('%' :: r).takeWhile Char.isWhitespace = [] := by
  rw [List.takeWhile_cons, if_neg (by decide)]

theorem natCharsAux_digits (fuel : Nat) : ∀ n : Nat, ∀ c ∈ natCharsAux fuel n,
    48 ≤ c.toNat ∧ c.toNat ≤ 57 := by
  induction fuel with
  | zero => intro n c hc; simp [natCharsAux] at hc
  | succ fuel ih =>
    intro n c hc
    rw [natCharsAux] at hc
    by_cases h : n < 10
    · rw [if_pos h] at hc
      simp only [List.mem_singleton] at hc
      subst hc
      interval_cases n <;> decide
    · rw [if_neg h] at hc
      rw [List.mem_append] at hc
      rcases hc with hc | hc
      · exact ih _ c hc
      · simp only [List.mem_singleton] at hc
        subst hc
        generalize hq : n % 10 = m
        have h10 : m < 10 := by omega
        interval_cases m <;> decide

theorem natChars_digits (n : Nat) : ∀ c ∈ natChars n,
    48 ≤ c.toNat ∧ c.toNat ≤ 57 := natCharsAux_digits (n + 1) n

theorem digit_not_ws (c : Char) (h : 48 ≤ c.toNat ∧ c.toNat ≤ 57) :
    c.isWhitespace = false := by
  by_cases hw : c.isWhitespace = true
  · exfalso
    simp only [Char.isWhitespace, Bool.or_eq_true, beq_iff_eq,
      decide_eq_true_eq] at hw
    rcases hw with ((h1 | h1) | h1) | h1 <;> subst h1 <;> revert h <;> decide
  · simpa using hw

theorem natChars_not_ws (n : Nat) : ∀ c ∈ natChars n, c.isWhitespace = false :=
  fun c hc => digit_not_ws c (natChars_digits n c hc)

theorem natChars_no_newline (n : Nat) : '\n' ∉ natChars n := by
  intro h
  have h2 := natChars_digits n '\n' h
  revert h2
  decide

theorem natChars_ne_nil (n : Nat) : natChars n ≠ [] := by
  simp only [natChars, natCharsAux]
  split <;> simp

theorem intChars_natCast (k : Nat) : intChars (k : Int) = natChars k := by
  simp only [intChars]
  rw [if_neg (by omega)]
  rfl

theorem commentContent_ws (lead X : List Char)
    (hl : ∀ c ∈ lead, c.isWhitespace = true) :
    commentContent (lead ++ X) = commentContent X := by
  simp only [commentContent]
  rw [trim_ws_append _ _ hl]

theorem isAnnotationLine_ws (lead X : List Char)
    (hl : ∀ c ∈ lead, c.isWhitespace = true) :
    isAnnotationLine (lead ++ X) = isAnnotationLine X := by
  simp only [isAnnotationLine]
  rw [trim_ws_append _ _ hl]

theorem isVisibleLine_ws (lead X : List Char)
    (hl : ∀ c ∈ lead, c.isWhitespace = true) :
    isVisibleLine (lead ++ X) = isVisibleLine X := by
  simp only [isVisibleLine]
  rw [trim_ws_append _ _ hl, show isAnnotationLine (lead ++ X) = isAnnotationLine X
    from isAnnotationLine_ws _ _ hl]

theorem not_visible_of_annotation (l : List Char) (h : isAnnotationLine l = true) :
    isVisibleLine l = false := by
  simp [isVisibleLine, h]

theorem trim_pp_wrapped (mid : List Char) :
    trim (('%' :: ('%' :: mid)) ++ ['%', '%']) = ('%' :: ('%' :: mid)) ++ ['%', '%'] := by
  apply trim_of_ends
  · rw [List.cons_append, takeWhile_ws_percent_head]
  · rw [show ('%' :: ('%' :: mid)) ++ ['%', '%']
        = (('%' :: ('%' :: mid)) ++ ['%']) ++ ['%'] from by simp,
      List.reverse_concat, takeWhile_ws_percent_head]

theorem commentContent_wrapped (mid : List Char) :
    commentContent (('%' :: ('%' :: mid)) ++ ['%', '%']) = trim mid := by
  simp only [commentContent]
  rw [trim_pp_wrapped]
  rw [show (('%' :: ('%' :: mid)) ++ ['%', '%']).drop 2 = mid ++ ['%', '%'] from by simp,
    show (('%' :: ('%' :: mid)) ++ ['%', '%']).length - 4 = mid.length from by
      simp [List.length_append],
    List.take_left]

theorem isAnnotationLine_wrapped (mid : List Char) :
    isAnnotationLine (('%' :: ('%' :: mid)) ++ ['%', '%']) = true := by
  simp only [isAnnotationLine]
  rw [trim_pp_wrapped,
    show (('%' :: ('%' :: mid)) ++ ['%', '%']).length - 2
      = ('%' :: ('%' :: mid)).length from by simp [List.length_append],
    List.drop_left]
  simp

theorem altStep_not (acc : List (List Char) × Option Int × List Char)
    (l : List Char) (h : isAnnotationLine l = false) : altStep acc l = acc := by
  simp [altStep, h]

theorem altStep_plain (acc : List (List Char) × Option Int × List Char)
    (l : List Char) (hA : isAnnotationLine l = true)
    (hs : startsWithChars SELECTEDprefixChars (commentContent l) = false)
    (ho : startsWithChars ORIGINALprefixChars (commentContent l) = false) :
    altStep acc l = (acc.1 ++ [commentContent l], acc.2.1, acc.2.2) := by
  simp [altStep, hA, hs, ho]

theorem altStep_selected (acc : List (List Char) × Option Int × List Char)
    (l : List Char) (hA : isAnnotationLine l = true)
    (hs : startsWithChars SELECTEDprefixChars (commentContent l) = true) :
    altStep acc l
      = (acc.1, parseIntOpt ((splitOnChar ':' (commentContent l)).getD 1 []),
         acc.2.2) := by
  simp [altStep, hA, hs]

theorem altStep_original (acc : List (List Char) × Option Int × List Char)
    (l : List Char) (hA : isAnnotationLine l = true)
    (hs : startsWithChars SELECTEDprefixChars (commentContent l) = false)
    (ho : startsWithChars ORIGINALprefixChars (commentContent l) = true) :
    altStep acc l = (acc.1, acc.2.1, trim ((commentContent l).drop 9)) := by
  simp [altStep, hA, hs, ho]

theorem foldl_altStep_plain (T : List (List Char))
    (acc : List (List Char) × Option Int × List Char)
    (hno : ∀ l ∈ T, isAnnotationLine l = true →
      startsWithChars ORIGINALprefixChars (commentContent l) = false)
    (hns : ∀ l ∈ T, isAnnotationLine l = true →
      startsWithChars SELECTEDprefixChars (commentContent l) = false) :
    T.foldl altStep acc
      = (acc.1 ++ (T.filter isAnnotationLine).map commentContent,
         acc.2.1, acc.2.2) := by
  induction T generalizing acc with
  | nil => simp
  | cons l T ih =>
    rw [List.foldl_cons, List.filter_cons]
    by_cases hA : isAnnotationLine l = true
    · rw [altStep_plain acc l hA (hns l (List.mem_cons_self _ _) hA)
        (hno l (List.mem_cons_self _ _) hA),
        ih _ (fun x hx hax => hno x (List.mem_cons_of_mem _ hx) hax)
          (fun x hx hax => hns x (List.mem_cons_of_mem _ hx) hax),
        if_pos hA]
      simp
    · have hA' : isAnnotationLine l = false := by simpa using hA
      rw [altStep_not acc l hA',
        ih _ (fun x hx hax => hno x (List.mem_cons_of_mem _ hx) hax)
          (fun x hx hax => hns x (List.mem_cons_of_mem _ hx) hax),
        if_neg hA]

theorem enumFrom_filter_sel_nil (n : Nat) (T : List (List Char))
    (hns : ∀ l ∈ T, isAnnotationLine l = true →
      startsWithChars SELECTEDprefixChars (commentContent l) = false) :
    (List.enumFrom n T).filter (fun pr => isAnnotationLine pr.2 &&
      startsWithChars SELECTEDprefixChars (commentContent pr.2)) = [] := by
  induction T generalizing n with
  | nil => rfl
  | cons l T ih =>
    rw [show List.enumFrom n (l :: T) = (n, l) :: List.enumFrom (n + 1) T from rfl,
      List.filter_cons]
    have hc : (isAnnotationLine (n, l).2 &&
        startsWithChars SELECTEDprefixChars (commentContent (n, l).2)) = false := by
      by_cases hA : isAnnotationLine l = true
      · simp [hA, hns l (List.mem_cons_self _ _) hA]
      · have hA' : isAnnotationLine l = false := by simpa using hA
        simp [hA']
    rw [if_neg (by simp [hc])]
    exact ih (n + 1) (fun x hx => hns x (List.mem_cons_of_mem _ hx))

theorem find_at_countVisible (P : List (List Char)) (v : List Char)
    (rest : List (List Char)) (hv : isVisibleLine v = true) :
    findSentenceLineIndex (P ++ v :: rest) (countVisibleLines P) = some P.length := by
  induction P with
  | nil =>
    show findSentenceLineIndex (v :: rest) (countVisibleLines []) = some 0
    simp [countVisibleLines, findSentenceLineIndex, hv]
  | cons a P ih =>
    rw [List.cons_append]
    by_cases ha : isVisibleLine a = true
    · have hc : countVisibleLines (a :: P) = countVisibleLines P + 1 := by
        simp [countVisibleLines, List.filter_cons, ha]
      rw [hc]
      simp only [findSentenceLineIndex]
      rw [if_pos ha, if_neg (by omega)]
      rw [show countVisibleLines P + 1 - 1 = countVisibleLines P from by omega, ih]
      simp
    · have ha' : isVisibleLine a = false := by simpa using ha
      have hc : countVisibleLines (a :: P) = countVisibleLines P := by
        simp [countVisibleLines, List.filter_cons, ha']
      rw [hc]
      simp only [findSentenceLineIndex]
      rw [if_neg ha, ih]
      simp

theorem getAlt_decomp (P Treg R : List (List Char)) (w : List Char)
    (hPnl : ∀ l ∈ P, '\n' ∉ l) (hwnl : '\n' ∉ w)
    (hTnl : ∀ l ∈ Treg, '\n' ∉ l) (hRnl : ∀ l ∈ R, '\n' ∉ l)
    (hw : isVisibleLine w = true)
    (hT : ∀ l ∈ Treg, isVisibleLine l = false)
    (hR : R.takeWhile (fun x => !isVisibleLine x) = []) :
    getSentenceAlternatives (joinLines (P ++ w :: (Treg ++ R))) (countVisibleLines P)
      = ⟨(Treg.foldl altStep ([], some (-1), [])).1,
         (Treg.foldl altStep ([], some (-1), [])).2.1,
         if (Treg.foldl altStep ([], some (-1), [])).2.2.isEmpty then trim w
         else (Treg.foldl altStep ([], some (-1), [])).2.2⟩ := by
  have hMem : ∀ l ∈ P ++ w :: (Treg ++ R), '\n' ∉ l := by
    intro l hl
    rcases List.mem_append.mp hl with h | h
    · exact hPnl l h
    · rcases List.mem_cons.mp h with h | h
      · exact h ▸ hwnl
      · rcases List.mem_append.mp h with h | h
        · exact hTnl l h
        · exact hRnl l h
  have hL : splitLines (joinLines (P ++ w :: (Treg ++ R))) = P ++ w :: (Treg ++ R) :=
    splitLines_joinLines _ (by simp) hMem
  have hTall : ∀ l ∈ Treg, (fun x => !isVisibleLine x) l = true := by
    intro l hl
    simp [hT l hl]
  simp only [getSentenceAlternatives, hL, find_at_countVisible P w (Treg ++ R) hw]
  rw [getD_append_self, show ((w :: (Treg ++ R)).getD 0 []) = w from rfl,
    List.drop_append 1, show ((w :: (Treg ++ R)).drop 1) = Treg ++ R from rfl,
    takeWhile_append_all _ _ _ hTall hR]

end Fornax


/-! ### Claim C4: select-alternative round trip -/

namespace Fornax

theorem getAlt_fresh (P T R : List (List Char)) (v : List Char)
    (hPnl : ∀ l ∈ P, '\n' ∉ l) (hvnl : '\n' ∉ v)
    (hTnl : ∀ l ∈ T, '\n' ∉ l) (hRnl : ∀ l ∈ R, '\n' ∉ l)
    (hv : isVisibleLine v = true)
    (hT : ∀ l ∈ T, isVisibleLine l = false)
    (hR : R.takeWhile (fun x => !isVisibleLine x) = [])
    (hno : ∀ l ∈ T, isAnnotationLine l = true →
      startsWithChars ORIGINALprefixChars (commentContent l) = false)
    (hns : ∀ l ∈ T, isAnnotationLine l = true →
      startsWithChars SELECTEDprefixChars (commentContent l) = false) :
    getSentenceAlternatives (joinLines (P ++ v :: (T ++ R))) (countVisibleLines P)
      = ⟨(T.filter isAnnotationLine).map commentContent, some (-1), trim v⟩ := by
  rw [getAlt_decomp P T R v hPnl hvnl hTnl hRnl hv hT hR,
    foldl_altStep_plain T _ hno hns]
  simp

theorem take_append_one {α : Type} (P X : List α) (x : α) :
    (P ++ x :: X).take (P.length + 1) = P ++ [x] := by
  rw [List.take_append 1]
  rfl

theorem drop_append_one {α : Type} (P X : List α) (x : α) :
    (P ++ x :: X).drop (P.length + 1) = X := by
  rw [List.drop_append 1]
  rfl

theorem getD_append_zero {α : Type} (P X : List α) (x : α) (d : α) :
    (P ++ x :: X).getD P.length d = x := by
  rw [getD_append_self]
  rfl

theorem set_append_zero {α : Type} (P X : List α) (x y : α) :
    (P ++ x :: X).set P.length y = P ++ y :: X := by
  rw [set_append_self]
  rfl

theorem select_k_trace (P T R : List (List Char)) (v : List Char) (k : Nat)
    (hPnl : ∀ l ∈ P, '\n' ∉ l) (hvnl : '\n' ∉ v)
    (hTnl : ∀ l ∈ T, '\n' ∉ l) (hRnl : ∀ l ∈ R, '\n' ∉ l)
    (hv : isVisibleLine v = true)
    (hT : ∀ l ∈ T, isVisibleLine l = false)
    (hR : R.takeWhile (fun x => !isVisibleLine x) = [])
    (hno : ∀ l ∈ T, isAnnotationLine l = true →
      startsWithChars ORIGINALprefixChars (commentContent l) = false)
    (hns : ∀ l ∈ T, isAnnotationLine l = true →
      startsWithChars SELECTEDprefixChars (commentContent l) = false)
    (hk : k < ((T.filter isAnnotationLine).map commentContent).length)
    (hak : ((T.filter isAnnotationLine).map commentContent).getD k [] ≠ []) :
    selectSentenceAlternative (joinLines (P ++ v :: (T ++ R)))
        (countVisibleLines P) (k : Int)
      = joinLines (P
          ++ (v.takeWhile Char.isWhitespace
              ++ ((T.filter isAnnotationLine).map commentContent).getD k [])
          :: (v.takeWhile Char.isWhitespace ++ "%% SELECTED:".data
              ++ intChars (k : Int) ++ " %%".data)
          :: (v.takeWhile Char.isWhitespace ++ "%% ORIGINAL: ".data ++ trim v
              ++ " %%".data)
          :: (T ++ R)) := by
  have hMem : ∀ l ∈ P ++ v :: (T ++ R), '\n' ∉ l := by
    intro l hl
    rcases List.mem_append.mp hl with h | h
    · exact hPnl l h
    · rcases List.mem_cons.mp h with h | h
      · exact h ▸ hvnl
      · rcases List.mem_append.mp h with h | h
        · exact hTnl l h
        · exact hRnl l h
  have hL : splitLines (joinLines (P ++ v :: (T ++ R))) = P ++ v :: (T ++ R) :=
    splitLines_joinLines _ (by simp) hMem
  have hGA := getAlt_fresh P T R v hPnl hvnl hTnl hRnl hv hT hR hno hns
  have hGAa : (getSentenceAlternatives (joinLines (P ++ v :: (T ++ R)))
      (countVisibleLines P)).alternatives
      = (T.filter isAnnotationLine).map commentContent := by rw [hGA]
  have hGAo : (getSentenceAlternatives (joinLines (P ++ v :: (T ++ R)))
      (countVisibleLines P)).original = trim v := by rw [hGA]
  have hkne : ¬((k : Int) = -1) := by omega
  have hcond : (0 ≤ (k : Int) ∧ (k : Int)
      < (((T.filter isAnnotationLine).map commentContent).length : Int)) :=
    ⟨by omega, by omega⟩
  have hanyO : T.any (fun l => isAnnotationLine l &&
      startsWithChars ORIGINALprefixChars (commentContent l)) = false := by
    rw [List.any_eq_false]
    intro l hl
    by_cases hA : isAnnotationLine l = true
    · simp [hA, hno l hl hA]
    · have hA2 : isAnnotationLine l = false := by simpa using hA
      simp [hA2]
  have hsel : ((T.enum).filter (fun pr => isAnnotationLine pr.2 &&
      startsWithChars SELECTEDprefixChars (commentContent pr.2))).map Prod.fst
      = ([] : List Nat) := by
    rw [show T.enum = List.enumFrom 0 T from rfl, enumFrom_filter_sel_nil 0 T hns]
    rfl
  have hTall : ∀ l ∈ T, (fun x => !isVisibleLine x) l = true := by
    intro l hl
    simp [hT l hl]
  have e_tw : List.takeWhile (fun l => !isVisibleLine l) (T ++ R) = T :=
    takeWhile_append_all _ _ _ hTall hR
  have e_toNat : ((k : Int)).toNat = k := rfl
  have e_empty : (((T.filter isAnnotationLine).map commentContent).getD k
      []).isEmpty = false := by
    cases hx : ((T.filter isAnnotationLine).map commentContent).getD k [] with
    | nil => exact absurd hx hak
    | cons a t => rfl
  simp only [selectSentenceAlternative, hGAa, hGAo, hL,
    find_at_countVisible P v (T ++ R) hv, drop_append_one, take_append_one,
    getD_append_zero, e_tw, hanyO, hsel, List.getLast?_nil, Option.map_none',
    eq_false hkne, eq_true hcond, e_toNat, e_empty, if_false, if_true,
    Bool.false_eq_true, Bool.not_false, not_false_eq_true, decide_not,
    decide_False, Bool.not_true, Bool.true_and, Bool.and_true, Bool.not_not,
    Bool.false_and, Bool.and_false, decide_True, eq_self_iff_true,
    List.append_assoc, List.singleton_append, set_append_zero, List.set_cons_zero]
  rw [if_pos hkne]

theorem set_append_add {α : Type} (P X : List α) (y : α) (n : Nat) :
    (P ++ X).set (P.length + n) y = P ++ X.set n y := by
  induction P with
  | nil => simp
  | cons a P ih =>
    rw [List.cons_append, List.length_cons, Nat.add_right_comm P.length 1 n]
    show a :: (P ++ X).set (P.length + n) y = (a :: P) ++ X.set n y
    rw [ih, List.cons_append]

theorem getD_append_one {α : Type} (P X : List α) (x : α) (d : α) :
    (P ++ x :: X).getD (P.length + 1) d = X.getD 0 d := by
  rw [getD_append_add]
  rfl

theorem set_append_one {α : Type} (P X : List α) (x y : α) :
    (P ++ x :: X).set (P.length + 1) y = P ++ x :: X.set 0 y := by
  rw [set_append_add]
  rfl

theorem drop_append_two {α : Type} (P X : List α) (x y : α) :
    (P ++ x :: y :: X).drop (P.length + 1 + 1) = X := by
  rw [show P.length + 1 + 1 = P.length + 2 from by omega, List.drop_append 2]
  rfl

theorem takeWhile_nil_of_all_not {α : Type} (q : α → Bool) (A : List α)
    (h : ∀ a ∈ A, q a = false) : A.takeWhile q = [] := by
  cases A with
  | nil => rfl
  | cons a s => rw [List.takeWhile_cons, if_neg (by simp [h a (List.mem_cons_self _ _)])]

theorem takeWhile_append_nil_left {α : Type} (q : α → Bool) (A B : List α)
    (hA : A.takeWhile q = []) (hAne : A ≠ []) : (A ++ B).takeWhile q = [] := by
  cases A with
  | nil => exact absurd rfl hAne
  | cons a s =>
    rw [List.takeWhile_cons] at hA
    by_cases hq : q a = true
    · rw [if_pos hq] at hA
      simp at hA
    · rw [List.cons_append, List.takeWhile_cons, if_neg hq]

theorem trimRight_fix_of_trim_fix (Z : List Char) (h : trim Z = Z) :
    trimRight Z = Z := by
  conv_lhs => rw [← h]
  rw [trimRight_trim, h]

theorem rev_takeWhile_ws_nil (Z : List Char) (h : trimRight Z = Z) :
    Z.reverse.takeWhile Char.isWhitespace = [] := by
  apply takeWhile_nil_of_dropWhile_self
  have h2 := congrArg List.reverse h
  simp only [trimRight, List.reverse_reverse] at h2
  exact h2

theorem trimRight_append_sp (Y Z : List Char)
    (hZrev : Z.reverse.takeWhile Char.isWhitespace = []) (hZne : Z ≠ []) :
    trimRight (Y ++ (Z ++ [' '])) = Y ++ Z := by
  show ((Y ++ (Z ++ [' '])).reverse.dropWhile Char.isWhitespace).reverse = Y ++ Z
  rw [List.reverse_append, List.reverse_append,
    show ([' '] : List Char).reverse = [' '] from rfl]
  rw [show ([' '] ++ Z.reverse) ++ Y.reverse = ' ' :: (Z.reverse ++ Y.reverse) from rfl]
  rw [List.dropWhile_cons, if_pos (by decide)]
  rw [dropWhile_of_takeWhile_nil _ _ (takeWhile_append_nil_left _ _ _ hZrev
    (by simpa using hZne))]
  rw [List.reverse_append, List.reverse_reverse, List.reverse_reverse]

theorem startsWith_self_append (pre X : List Char) :
    startsWithChars pre (pre ++ X) = true := by
  simp [startsWithChars, List.take_left]

theorem startsWith_ne (pre A X : List Char) (hlen : A.length = pre.length)
    (hne : (A == pre) = false) : startsWithChars pre (A ++ X) = false := by
  simp only [startsWithChars]
  rw [← hlen, List.take_left, hne]

theorem isAnnotationLine_trim_congr (a b : List Char) (h : trim a = trim b) :
    isAnnotationLine a = isAnnotationLine b := by
  simp only [isAnnotationLine, h]

theorem sp_all_ws : ∀ c ∈ ([' '] : List Char), c.isWhitespace = true := by
  intro c hc
  rw [List.mem_singleton] at hc
  subst hc
  decide

theorem cc_selline (lead D : List Char)
    (hlead : ∀ c ∈ lead, c.isWhitespace = true)
    (hD : D ≠ []) (hDws : ∀ c ∈ D, c.isWhitespace = false) :
    commentContent (lead ++ "%% SELECTED:".data ++ D ++ " %%".data)
      = "SELECTED:".data ++ D := by
  rw [show lead ++ "%% SELECTED:".data ++ D ++ " %%".data
      = lead ++ (('%' :: ('%' :: (" SELECTED:".data ++ (D ++ [' '])))) ++ ['%', '%'])
      from by simp,
    commentContent_ws _ _ hlead, commentContent_wrapped,
    show " SELECTED:".data ++ (D ++ [' '])
      = [' '] ++ ("SELECTED:".data ++ (D ++ [' '])) from rfl,
    trim_ws_append _ _ sp_all_ws]
  show trimRight (trimLeft ("SELECTED:".data ++ (D ++ [' ']))) = "SELECTED:".data ++ D
  rw [trimLeft_of_takeWhile_nil _ (by
    rw [show "SELECTED:".data ++ (D ++ [' '])
        = 'S' :: ("ELECTED:".data ++ (D ++ [' '])) from rfl,
      List.takeWhile_cons, if_neg (by decide)])]
  exact trimRight_append_sp _ _
    (takeWhile_nil_of_all_not _ _ (fun c hc => hDws c (List.mem_reverse.mp hc))) hD

theorem cc_origline (lead cur : List Char)
    (hlead : ∀ c ∈ lead, c.isWhitespace = true)
    (hcur : cur ≠ []) (hcurtrim : trim cur = cur) :
    commentContent (lead ++ "%% ORIGINAL: ".data ++ cur ++ " %%".data)
      = "ORIGINAL: ".data ++ cur := by
  rw [show lead ++ "%% ORIGINAL: ".data ++ cur ++ " %%".data
      = lead ++ (('%' :: ('%' :: (" ORIGINAL: ".data ++ (cur ++ [' '])))) ++ ['%', '%'])
      from by simp,
    commentContent_ws _ _ hlead, commentContent_wrapped,
    show " ORIGINAL: ".data ++ (cur ++ [' '])
      = [' '] ++ ("ORIGINAL: ".data ++ (cur ++ [' '])) from rfl,
    trim_ws_append _ _ sp_all_ws]
  show trimRight (trimLeft ("ORIGINAL: ".data ++ (cur ++ [' ']))) = "ORIGINAL: ".data ++ cur
  rw [trimLeft_of_takeWhile_nil _ (by
    rw [show "ORIGINAL: ".data ++ (cur ++ [' '])
        = 'O' :: ("RIGINAL: ".data ++ (cur ++ [' '])) from rfl,
      List.takeWhile_cons, if_neg (by decide)])]
  exact trimRight_append_sp _ _
    (rev_takeWhile_ws_nil _ (trimRight_fix_of_trim_fix _ hcurtrim)) hcur

theorem isAnn_selline (lead D : List Char)
    (hlead : ∀ c ∈ lead, c.isWhitespace = true) :
    isAnnotationLine (lead ++ "%% SELECTED:".data ++ D ++ " %%".data) = true := by
  rw [show lead ++ "%% SELECTED:".data ++ D ++ " %%".data
      = lead ++ (('%' :: ('%' :: (" SELECTED:".data ++ (D ++ [' '])))) ++ ['%', '%'])
      from by simp,
    isAnnotationLine_ws _ _ hlead, isAnnotationLine_wrapped]

theorem isAnn_origline (lead cur : List Char)
    (hlead : ∀ c ∈ lead, c.isWhitespace = true) :
    isAnnotationLine (lead ++ "%% ORIGINAL: ".data ++ cur ++ " %%".data) = true := by
  rw [show lead ++ "%% ORIGINAL: ".data ++ cur ++ " %%".data
      = lead ++ (('%' :: ('%' :: (" ORIGINAL: ".data ++ (cur ++ [' '])))) ++ ['%', '%'])
      from by simp,
    isAnnotationLine_ws _ _ hlead, isAnnotationLine_wrapped]

end Fornax

namespace Fornax

theorem select_neg1_trace (P T R : List (List Char)) (lead ak cur D : List Char)
    (hPnl : ∀ l ∈ P, '\n' ∉ l)
    (hTnl : ∀ l ∈ T, '\n' ∉ l) (hRnl : ∀ l ∈ R, '\n' ∉ l)
    (hleadws : ∀ c ∈ lead, c.isWhitespace = true) (hleadnl : '\n' ∉ lead)
    (hakne : ak ≠ []) (haktrim : trim ak = ak)
    (hakann : isAnnotationLine ak = false) (haknl : '\n' ∉ ak)
    (hcurne : cur ≠ []) (hcurtrim : trim cur = cur) (hcurnl : '\n' ∉ cur)
    (hDne : D ≠ []) (hDws : ∀ c ∈ D, c.isWhitespace = false) (hDnl : '\n' ∉ D)
    (hT : ∀ l ∈ T, isVisibleLine l = false)
    (hR : R.takeWhile (fun x => !isVisibleLine x) = [])
    (hno : ∀ l ∈ T, isAnnotationLine l = true →
      startsWithChars ORIGINALprefixChars (commentContent l) = false)
    (hns : ∀ l ∈ T, isAnnotationLine l = true →
      startsWithChars SELECTEDprefixChars (commentContent l) = false) :
    selectSentenceAlternative (joinLines (P
        ++ (lead ++ ak)
        :: (lead ++ "%% SELECTED:".data ++ D ++ " %%".data)
        :: (lead ++ "%% ORIGINAL: ".data ++ cur ++ " %%".data)
        :: (T ++ R))) (countVisibleLines P) (-1)
      = joinLines (P
        ++ (lead ++ cur)
        :: (lead ++ "%% ORIGINAL: ".data ++ cur ++ " %%".data)
        :: (T ++ R)) := by
  have hSELnl : '\n' ∉ lead ++ "%% SELECTED:".data ++ D ++ " %%".data := by
    intro hmem
    rcases List.mem_append.mp hmem with h | h
    · rcases List.mem_append.mp h with h | h
      · rcases List.mem_append.mp h with h | h
        · exact hleadnl h
        · revert h; decide
      · exact hDnl h
    · revert h; decide
  have hORnl : '\n' ∉ lead ++ "%% ORIGINAL: ".data ++ cur ++ " %%".data := by
    intro hmem
    rcases List.mem_append.mp hmem with h | h
    · rcases List.mem_append.mp h with h | h
      · rcases List.mem_append.mp h with h | h
        · exact hleadnl h
        · revert h; decide
      · exact hcurnl h
    · revert h; decide
  have hwnl : '\n' ∉ lead ++ ak := by
    intro hmem
    rcases List.mem_append.mp hmem with h | h
    · exact hleadnl h
    · exact haknl h
  have hMem : ∀ l ∈ P
      ++ (lead ++ ak)
      :: (lead ++ "%% SELECTED:".data ++ D ++ " %%".data)
      :: (lead ++ "%% ORIGINAL: ".data ++ cur ++ " %%".data)
      :: (T ++ R), '\n' ∉ l := by
    intro l hl
    rcases List.mem_append.mp hl with h | h
    · exact hPnl l h
    · rcases List.mem_cons.mp h with h | h
      · exact h ▸ hwnl
      · rcases List.mem_cons.mp h with h | h
        · exact h ▸ hSELnl
        · rcases List.mem_cons.mp h with h | h
          · exact h ▸ hORnl
          · rcases List.mem_append.mp h with h | h
            · exact hTnl l h
            · exact hRnl l h
  have hL : splitLines (joinLines (P
      ++ (lead ++ ak)
      :: (lead ++ "%% SELECTED:".data ++ D ++ " %%".data)
      :: (lead ++ "%% ORIGINAL: ".data ++ cur ++ " %%".data)
      :: (T ++ R)))
      = P ++ (lead ++ ak)
        :: (lead ++ "%% SELECTED:".data ++ D ++ " %%".data)
        :: (lead ++ "%% ORIGINAL: ".data ++ cur ++ " %%".data)
        :: (T ++ R) :=
    splitLines_joinLines _ (by simp) hMem
  have hak_tw : ak.takeWhile Char.isWhitespace = [] := by
    rw [← haktrim]
    exact takeWhile_ws_trim ak
  have hwvis : isVisibleLine (lead ++ ak) = true := by
    rw [isVisibleLine_ws _ _ hleadws]
    simp only [isVisibleLine, haktrim, hakann]
    cases hx : ak with
    | nil => exact absurd hx hakne
    | cons a t => rfl
  have hSELann : isAnnotationLine (lead ++ "%% SELECTED:".data ++ D ++ " %%".data)
      = true := isAnn_selline lead D hleadws
  have hORann : isAnnotationLine (lead ++ "%% ORIGINAL: ".data ++ cur ++ " %%".data)
      = true := isAnn_origline lead cur hleadws
  have hSELvis : isVisibleLine (lead ++ "%% SELECTED:".data ++ D ++ " %%".data)
      = false := not_visible_of_annotation _ hSELann
  have hORvis : isVisibleLine (lead ++ "%% ORIGINAL: ".data ++ cur ++ " %%".data)
      = false := not_visible_of_annotation _ hORann
  have ccSEL : commentContent (lead ++ "%% SELECTED:".data ++ D ++ " %%".data)
      = SELECTEDprefixChars ++ D := by
    rw [cc_selline lead D hleadws hDne hDws]
    rfl
  have ccOR : commentContent (lead ++ "%% ORIGINAL: ".data ++ cur ++ " %%".data)
      = ORIGINALprefixChars ++ ([' '] ++ cur) := by
    rw [cc_origline lead cur hleadws hcurne hcurtrim]
    rfl
  have hSELsel : startsWithChars SELECTEDprefixChars
      (commentContent (lead ++ "%% SELECTED:".data ++ D ++ " %%".data)) = true := by
    rw [ccSEL]
    exact startsWith_self_append _ _
  have hORsel : startsWithChars SELECTEDprefixChars
      (commentContent (lead ++ "%% ORIGINAL: ".data ++ cur ++ " %%".data)) = false := by
    rw [ccOR]
    exact startsWith_ne _ _ _ (by decide) (by decide)
  have hORor : startsWithChars ORIGINALprefixChars
      (commentContent (lead ++ "%% ORIGINAL: ".data ++ cur ++ " %%".data)) = true := by
    rw [ccOR]
    exact startsWith_self_append _ _
  have e_drop9 : trim ((commentContent
      (lead ++ "%% ORIGINAL: ".data ++ cur ++ " %%".data)).drop 9) = cur := by
    rw [ccOR, show (9 : Nat) = ORIGINALprefixChars.length from rfl, List.drop_left,
      trim_ws_append _ _ sp_all_ws, hcurtrim]
  have hTreg : ∀ l ∈ (lead ++ "%% SELECTED:".data ++ D ++ " %%".data)
      :: (lead ++ "%% ORIGINAL: ".data ++ cur ++ " %%".data) :: T,
      isVisibleLine l = false := by
    intro l hl
    rcases List.mem_cons.mp hl with h | h
    · exact h ▸ hSELvis
    · rcases List.mem_cons.mp h with h | h
      · exact h ▸ hORvis
      · exact hT l h
  have hTregnl : ∀ l ∈ (lead ++ "%% SELECTED:".data ++ D ++ " %%".data)
      :: (lead ++ "%% ORIGINAL: ".data ++ cur ++ " %%".data) :: T, '\n' ∉ l := by
    intro l hl
    rcases List.mem_cons.mp hl with h | h
    · exact h ▸ hSELnl
    · rcases List.mem_cons.mp h with h | h
      · exact h ▸ hORnl
      · exact hTnl l h
  have e_cur_empty : cur.isEmpty = false := by
    cases hx : cur with
    | nil => exact absurd hx hcurne
    | cons a t => rfl
  have hGAo2 : (getSentenceAlternatives (joinLines (P
      ++ (lead ++ ak)
      :: (lead ++ "%% SELECTED:".data ++ D ++ " %%".data)
      :: (lead ++ "%% ORIGINAL: ".data ++ cur ++ " %%".data)
      :: (T ++ R))) (countVisibleLines P)).original = cur := by
    rw [show P ++ (lead ++ ak)
        :: (lead ++ "%% SELECTED:".data ++ D ++ " %%".data)
        :: (lead ++ "%% ORIGINAL: ".data ++ cur ++ " %%".data)
        :: (T ++ R)
        = P ++ (lead ++ ak)
        :: (((lead ++ "%% SELECTED:".data ++ D ++ " %%".data)
          :: (lead ++ "%% ORIGINAL: ".data ++ cur ++ " %%".data) :: T) ++ R) from by simp,
      getAlt_decomp P _ R _ hPnl hwnl hTregnl hRnl hwvis hTreg hR,
      List.foldl_cons, altStep_selected _ _ hSELann hSELsel,
      List.foldl_cons, altStep_original _ _ hORann hORsel hORor, e_drop9,
      foldl_altStep_plain T _ hno hns]
    show (if cur.isEmpty = true then trim (lead ++ ak) else cur) = cur
    rw [e_cur_empty]
    simp
  have e_any2 : ((lead ++ "%% SELECTED:".data ++ D ++ " %%".data)
      :: (lead ++ "%% ORIGINAL: ".data ++ cur ++ " %%".data) :: T).any
      (fun l => isAnnotationLine l &&
        startsWithChars ORIGINALprefixChars (commentContent l)) = true := by
    rw [List.any_cons, List.any_cons, hORann, hORor]
    simp
  have e_sel2 : (((lead ++ "%% SELECTED:".data ++ D ++ " %%".data)
      :: (lead ++ "%% ORIGINAL: ".data ++ cur ++ " %%".data) :: T).enum.filter
      (fun pr => isAnnotationLine pr.2 &&
        startsWithChars SELECTEDprefixChars (commentContent pr.2))).map Prod.fst
      = [0] := by
    rw [show ((lead ++ "%% SELECTED:".data ++ D ++ " %%".data)
        :: (lead ++ "%% ORIGINAL: ".data ++ cur ++ " %%".data) :: T).enum
        = (0, lead ++ "%% SELECTED:".data ++ D ++ " %%".data)
          :: (1, lead ++ "%% ORIGINAL: ".data ++ cur ++ " %%".data)
          :: List.enumFrom 2 T from rfl,
      List.filter_cons, if_pos (show ((fun pr => isAnnotationLine pr.2 &&
          startsWithChars SELECTEDprefixChars (commentContent pr.2))
          ((0 : Nat), lead ++ "%% SELECTED:".data ++ D ++ " %%".data)) = true from by
        show (isAnnotationLine (lead ++ "%% SELECTED:".data ++ D ++ " %%".data) &&
          startsWithChars SELECTEDprefixChars (commentContent
            (lead ++ "%% SELECTED:".data ++ D ++ " %%".data))) = true
        rw [hSELann, hSELsel]
        rfl),
      List.filter_cons, if_neg (show ¬((fun pr => isAnnotationLine pr.2 &&
          startsWithChars SELECTEDprefixChars (commentContent pr.2))
          ((1 : Nat), lead ++ "%% ORIGINAL: ".data ++ cur ++ " %%".data)) = true from by
        show ¬((isAnnotationLine (lead ++ "%% ORIGINAL: ".data ++ cur ++ " %%".data) &&
          startsWithChars SELECTEDprefixChars (commentContent
            (lead ++ "%% ORIGINAL: ".data ++ cur ++ " %%".data))) = true)
        rw [hORsel]
        simp),
      enumFrom_filter_sel_nil 2 T hns]
    rfl
  have e_last : (([0] : List Nat)).getLast? = some 0 := rfl
  have e_leadtw : (lead ++ ak).takeWhile Char.isWhitespace = lead :=
    takeWhile_append_all _ _ _ hleadws hak_tw
  have e_leadSEL : (lead ++ "%% SELECTED:".data ++ D ++ " %%".data).takeWhile
      Char.isWhitespace = lead := by
    rw [show lead ++ "%% SELECTED:".data ++ D ++ " %%".data
        = lead ++ ('%' :: ("% SELECTED:".data ++ (D ++ " %%".data))) from by simp]
    exact takeWhile_append_all _ _ _ hleadws (takeWhile_ws_percent_head _)
  have e_tw2 : List.takeWhile (fun l => !isVisibleLine l)
      ((lead ++ "%% SELECTED:".data ++ D ++ " %%".data)
        :: (lead ++ "%% ORIGINAL: ".data ++ cur ++ " %%".data) :: (T ++ R))
      = (lead ++ "%% SELECTED:".data ++ D ++ " %%".data)
        :: (lead ++ "%% ORIGINAL: ".data ++ cur ++ " %%".data) :: T := by
    rw [List.takeWhile_cons, if_pos (show ((fun l => !isVisibleLine l)
        (lead ++ "%% SELECTED:".data ++ D ++ " %%".data)) = true from by
      show (!isVisibleLine (lead ++ "%% SELECTED:".data ++ D ++ " %%".data)) = true
      rw [hSELvis]
      rfl),
      List.takeWhile_cons, if_pos (show ((fun l => !isVisibleLine l)
        (lead ++ "%% ORIGINAL: ".data ++ cur ++ " %%".data)) = true from by
      show (!isVisibleLine (lead ++ "%% ORIGINAL: ".data ++ cur ++ " %%".data)) = true
      rw [hORvis]
      rfl),
      takeWhile_append_all _ _ _ (fun l hl => by simp [hT l hl]) hR]
  have e_find := find_at_countVisible P (lead ++ ak)
    ((lead ++ "%% SELECTED:".data ++ D ++ " %%".data)
      :: (lead ++ "%% ORIGINAL: ".data ++ cur ++ " %%".data) :: (T ++ R)) hwvis
  simp only [List.append_assoc, List.singleton_append] at hL hGAo2 e_any2 e_sel2 e_leadtw e_leadSEL e_tw2 e_find hSELvis hORvis
  simp only [selectSentenceAlternative, hGAo2, hL, e_find,
    drop_append_one, take_append_one, getD_append_zero, getD_append_one,
    e_tw2, e_any2, e_sel2, e_last, e_leadtw, e_leadSEL, e_cur_empty,
    set_append_zero, set_append_one, List.set_cons_zero, List.getD_cons_zero,
    Option.map_some', if_false, if_true, Bool.false_eq_true, Bool.not_true,
    Bool.false_and, Bool.and_false, eq_self_iff_true, ne_eq, not_true,
    decide_False, decide_True, Bool.not_false, add_zero, hSELvis, hORvis,
    List.append_assoc, List.singleton_append, drop_append_two]

end Fornax

namespace Fornax

theorem mem_trim {c : Char} (l : List Char) (h : c ∈ trim l) : c ∈ l :=
  (List.dropWhile_suffix Char.isWhitespace).subset
    (( trimRight_prefix (trimLeft l)).subset h)

theorem mem_commentContent {c : Char} (l : List Char) (h : c ∈ commentContent l) :
    c ∈ l := by
  rw [show commentContent l
      = trim (((trim l).drop 2).take ((trim l).length - 4)) from rfl] at h
  exact mem_trim _ (List.drop_subset _ _ (List.take_subset _ _ (mem_trim _ h)))

theorem trim_commentContent (l : List Char) :
    trim (commentContent l) = commentContent l := by
  rw [show commentContent l
      = trim (((trim l).drop 2).take ((trim l).length - 4)) from rfl, trim_trim]

theorem trimRight_of_rev_takeWhile_nil (l : List Char)
    (h : l.reverse.takeWhile Char.isWhitespace = []) : trimRight l = l := by
  show (l.reverse.dropWhile Char.isWhitespace).reverse = l
  rw [dropWhile_of_takeWhile_nil _ _ h, List.reverse_reverse]

theorem visible_decomp (v : List Char) (hvtr : trimRight v = v) :
    v.takeWhile Char.isWhitespace ++ trim v = v := by
  have h1 : (trimLeft v).reverse <+: v.reverse :=
    List.reverse_prefix.mpr (List.dropWhile_suffix _)
  have h2 : (trimLeft v).reverse.takeWhile Char.isWhitespace = [] :=
    takeWhile_ws_of_prefix _ _ h1 (rev_takeWhile_ws_nil v hvtr)
  have h3 : trim v = trimLeft v := trimRight_of_rev_takeWhile_nil _ h2
  rw [h3]
  exact List.takeWhile_append_dropWhile _ _

theorem trim_ne_nil_of_visible (v : List Char) (hv : isVisibleLine v = true) :
    trim v ≠ [] := by
  intro h
  simp [isVisibleLine, h] at hv

end Fornax

namespace Fornax

theorem getAlt_after_restore (P T R : List (List Char)) (w lead cur : List Char)
    (hPnl : ∀ l ∈ P, '\n' ∉ l) (hwnl : '\n' ∉ w)
    (hTnl : ∀ l ∈ T, '\n' ∉ l) (hRnl : ∀ l ∈ R, '\n' ∉ l)
    (hleadws : ∀ c ∈ lead, c.isWhitespace = true) (hleadnl : '\n' ∉ lead)
    (hcurne : cur ≠ []) (hcurtrim : trim cur = cur) (hcurnl : '\n' ∉ cur)
    (hw : isVisibleLine w = true)
    (hT : ∀ l ∈ T, isVisibleLine l = false)
    (hR : R.takeWhile (fun x => !isVisibleLine x) = [])
    (hno : ∀ l ∈ T, isAnnotationLine l = true →
      startsWithChars ORIGINALprefixChars (commentContent l) = false)
    (hns : ∀ l ∈ T, isAnnotationLine l = true →
      startsWithChars SELECTEDprefixChars (commentContent l) = false) :
    getSentenceAlternatives (joinLines (P ++ w
        :: (lead ++ "%% ORIGINAL: ".data ++ cur ++ " %%".data) :: (T ++ R)))
      (countVisibleLines P)
      = ⟨(T.filter isAnnotationLine).map commentContent, some (-1), cur⟩ := by
  have hORann : isAnnotationLine (lead ++ "%% ORIGINAL: ".data ++ cur ++ " %%".data)
      = true := isAnn_origline lead cur hleadws
  have hORvis : isVisibleLine (lead ++ "%% ORIGINAL: ".data ++ cur ++ " %%".data)
      = false := not_visible_of_annotation _ hORann
  have ccOR : commentContent (lead ++ "%% ORIGINAL: ".data ++ cur ++ " %%".data)
      = ORIGINALprefixChars ++ ([' '] ++ cur) := by
    rw [cc_origline lead cur hleadws hcurne hcurtrim]
    rfl
  have hORsel : startsWithChars SELECTEDprefixChars
      (commentContent (lead ++ "%% ORIGINAL: ".data ++ cur ++ " %%".data)) = false := by
    rw [ccOR]
    exact startsWith_ne _ _ _ (by decide) (by decide)
  have hORor : startsWithChars ORIGINALprefixChars
      (commentContent (lead ++ "%% ORIGINAL: ".data ++ cur ++ " %%".data)) = true := by
    rw [ccOR]
    exact startsWith_self_append _ _
  have e_drop9 : trim ((commentContent
      (lead ++ "%% ORIGINAL: ".data ++ cur ++ " %%".data)).drop 9) = cur := by
    rw [ccOR, show (9 : Nat) = ORIGINALprefixChars.length from rfl, List.drop_left,
      trim_ws_append _ _ sp_all_ws, hcurtrim]
  have hORnl : '\n' ∉ lead ++ "%% ORIGINAL: ".data ++ cur ++ " %%".data := by
    intro hmem
    rcases List.mem_append.mp hmem with h | h
    · rcases List.mem_append.mp h with h | h
      · rcases List.mem_append.mp h with h | h
        · exact hleadnl h
        · revert h; decide
      · exact hcurnl h
    · revert h; decide
  have hTreg : ∀ l ∈ (lead ++ "%% ORIGINAL: ".data ++ cur ++ " %%".data) :: T,
      isVisibleLine l = false := by
    intro l hl
    rcases List.mem_cons.mp hl with h | h
    · exact h ▸ hORvis
    · exact hT l h
  have hTregnl : ∀ l ∈ (lead ++ "%% ORIGINAL: ".data ++ cur ++ " %%".data) :: T,
      '\n' ∉ l := by
    intro l hl
    rcases List.mem_cons.mp hl with h | h
    · exact h ▸ hORnl
    · exact hTnl l h
  have e_cur_empty : cur.isEmpty = false := by
    cases hx : cur with
    | nil => exact absurd hx hcurne
    | cons a t => rfl
  rw [show P ++ w :: (lead ++ "%% ORIGINAL: ".data ++ cur ++ " %%".data) :: (T ++ R)
      = P ++ w :: (((lead ++ "%% ORIGINAL: ".data ++ cur ++ " %%".data) :: T) ++ R)
      from by simp,
    getAlt_decomp P _ R w hPnl hwnl hTregnl hRnl hw hTreg hR,
    List.foldl_cons, altStep_original _ _ hORann hORsel hORor, e_drop9,
    foldl_altStep_plain T _ hno hns]
  simp [e_cur_empty]

end Fornax

namespace Fornax

/-- C4, amended: on a paragraph whose sentence line `v` has a fresh
annotation region (only plain alternatives, no `ORIGINAL:`/`SELECTED:`
comments yet, and `v` has no trailing whitespace), selecting alternative
`k` and then selecting the original sentinel `-1` restores the visible
line to exactly `v`, leaves the `%% ORIGINAL: ... %%` marker in place
right after it, and preserves the list of alternatives.  The claim as
stated over every document is false — see the counterexample: when a
stale `ORIGINAL:` comment already exists, select(-1) restores that
comment's payload, not the text that was visible before the first call. -/
theorem C4_select_then_restore (P T R : List (List Char)) (v : List Char) (k : Nat)
    (hPnl : ∀ l ∈ P, '\n' ∉ l) (hvnl : '\n' ∉ v)
    (hTnl : ∀ l ∈ T, '\n' ∉ l) (hRnl : ∀ l ∈ R, '\n' ∉ l)
    (hv : isVisibleLine v = true) (hvtr : trimRight v = v)
    (hT : ∀ l ∈ T, isVisibleLine l = false)
    (hR : R.takeWhile (fun x => !isVisibleLine x) = [])
    (hno : ∀ l ∈ T, isAnnotationLine l = true →
      startsWithChars ORIGINALprefixChars (commentContent l) = false)
    (hns : ∀ l ∈ T, isAnnotationLine l = true →
      startsWithChars SELECTEDprefixChars (commentContent l) = false)
    (hk : k < ((T.filter isAnnotationLine).map commentContent).length)
    (hak : ((T.filter isAnnotationLine).map commentContent).getD k [] ≠ [])
    (hakann : isAnnotationLine
      (((T.filter isAnnotationLine).map commentContent).getD k []) = false) :
    selectSentenceAlternative
        (selectSentenceAlternative (joinLines (P ++ v :: (T ++ R)))
          (countVisibleLines P) (k : Int))
        (countVisibleLines P) (-1)
      = joinLines (P ++ v
          :: (v.takeWhile Char.isWhitespace ++ "%% ORIGINAL: ".data ++ trim v
              ++ " %%".data)
          :: (T ++ R))
    ∧ (getSentenceAlternatives (selectSentenceAlternative
          (selectSentenceAlternative (joinLines (P ++ v :: (T ++ R)))
            (countVisibleLines P) (k : Int))
          (countVisibleLines P) (-1)) (countVisibleLines P)).alternatives
      = (getSentenceAlternatives (joinLines (P ++ v :: (T ++ R)))
          (countVisibleLines P)).alternatives := by
  have hleadws : ∀ c ∈ v.takeWhile Char.isWhitespace, c.isWhitespace = true :=
    fun c hc => List.mem_takeWhile_imp hc
  have hleadnl : '\n' ∉ v.takeWhile Char.isWhitespace :=
    fun h => hvnl (( List.takeWhile_prefix _).subset h)
  have hcurne : trim v ≠ [] := trim_ne_nil_of_visible v hv
  have hcurtrim : trim (trim v) = trim v := trim_trim v
  have hcurnl : '\n' ∉ trim v := fun h => hvnl (mem_trim v h)
  have hakmem : ((T.filter isAnnotationLine).map commentContent).getD k []
      ∈ (T.filter isAnnotationLine).map commentContent := by
    rw [getD_eq_getElem_of_lt _ _ hk]
    exact List.getElem_mem hk
  obtain ⟨a, hamem, ha⟩ := List.mem_map.mp hakmem
  have haktrim : trim (((T.filter isAnnotationLine).map commentContent).getD k [])
      = ((T.filter isAnnotationLine).map commentContent).getD k [] := by
    rw [← ha]
    exact trim_commentContent a
  have haknl : '\n' ∉ ((T.filter isAnnotationLine).map commentContent).getD k [] := by
    rw [← ha]
    intro h
    exact hTnl a (List.mem_of_mem_filter hamem) (mem_commentContent a h)
  have hDne : intChars (k : Int) ≠ [] := by
    rw [intChars_natCast]
    exact natChars_ne_nil k
  have hDws : ∀ c ∈ intChars (k : Int), c.isWhitespace = false := by
    rw [intChars_natCast]
    exact natChars_not_ws k
  have hDnl : '\n' ∉ intChars (k : Int) := by
    rw [intChars_natCast]
    exact natChars_no_newline k
  have h1 := select_k_trace P T R v k hPnl hvnl hTnl hRnl hv hT hR hno hns hk hak
  have h2 := select_neg1_trace P T R (v.takeWhile Char.isWhitespace)
    (((T.filter isAnnotationLine).map commentContent).getD k []) (trim v)
    (intChars (k : Int)) hPnl hTnl hRnl hleadws hleadnl hak haktrim hakann haknl
    hcurne hcurtrim hcurnl hDne hDws hDnl hT hR hno hns
  constructor
  · rw [h1, h2, visible_decomp v hvtr]
  · rw [h1, h2, visible_decomp v hvtr,
      getAlt_after_restore P T R v (v.takeWhile Char.isWhitespace) (trim v)
        hPnl hvnl hTnl hRnl hleadws hleadnl hcurne hcurtrim hcurnl hv hT hR hno hns,
      getAlt_fresh P T R v hPnl hvnl hTnl hRnl hv hT hR hno hns]

end Fornax

namespace Fornax

/-- C4, counterexample: the claim says select(k) then select(original)
restores the text that was visible before the first call.  On a paragraph
whose region already holds a stale `%% ORIGINAL: old %%` comment, the
first select does not insert a new `ORIGINAL:` marker (one exists), so the
second select restores the stale payload `old` instead of the pre-call
visible text `cur`, even though `k` was a valid alternative index. -/
theorem C4_counterexample :
    (0 : Nat) < (getSentenceAlternatives
        "cur\n%% ORIGINAL: old %%\n%% alt0 %%".data 0).alternatives.length
    ∧ (splitLines "cur\n%% ORIGINAL: old %%\n%% alt0 %%".data).getD 0 [] = "cur".data
    ∧ (splitLines (selectSentenceAlternative (selectSentenceAlternative
          "cur\n%% ORIGINAL: old %%\n%% alt0 %%".data 0 0) 0 (-1))).getD 0 []
        = "old".data
    ∧ ("old".data : List Char) ≠ "cur".data := by decide

end Fornax

namespace Fornax

theorem C4_select_then_restore_witness :
    (0 : Nat) < ((List.filter isAnnotationLine ["%% alt %%".data]).map
      commentContent).length
    ∧ (selectSentenceAlternative
        (selectSentenceAlternative (joinLines ([] ++ "cur".data
            :: (["%% alt %%".data] ++ []))) (countVisibleLines []) ((0 : Nat) : Int))
        (countVisibleLines []) (-1)
      = joinLines ([] ++ "cur".data
          :: ("cur".data.takeWhile Char.isWhitespace ++ "%% ORIGINAL: ".data
              ++ trim "cur".data ++ " %%".data)
          :: (["%% alt %%".data] ++ []))
    ∧ (getSentenceAlternatives (selectSentenceAlternative
          (selectSentenceAlternative (joinLines ([] ++ "cur".data
              :: (["%% alt %%".data] ++ []))) (countVisibleLines []) ((0 : Nat) : Int))
          (countVisibleLines []) (-1)) (countVisibleLines [])).alternatives
      = (getSentenceAlternatives (joinLines ([] ++ "cur".data
          :: (["%% alt %%".data] ++ []))) (countVisibleLines [])).alternatives) :=
  ⟨by decide,
   C4_select_then_restore [] ["%% alt %%".data] [] "cur".data 0
     (by decide) (by decide) (by decide) (by decide) (by decide) (by decide)
     (by decide) (by decide) (by decide) (by decide) (by decide) (by decide)
     (by decide)⟩

end Fornax
